import Mathlib

/-!
Verification of the GitLab Secrets Manager core (gitlab_secrets.py,
gitlab_client.py): a shallow embedding of the key validator, the format
codec (parse/serialize for YAML-simple, YAML-structured, JSON and
line-oriented .env), the remote paginator, the sync engine and the
filter/sort pipeline, together with theorems settling the spec claims.

Python strings are modelled as Lean `String`/`List Char` (code points agree
with Python code points), dicts built by the code are modelled as ordered
association lists (insertion order, in-place update on repeated keys),
exceptions as `Except`, and the HTTP collaborator as explicit result values.
-/

/-! ### Python character-class helpers -/

/-- Code points Python treats as whitespace in `str` (matched by `\s`,
removed by `str.strip`). -/
def pySpaceCodes : List Nat :=
  [0x9, 0xa, 0xb, 0xc, 0xd, 0x1c, 0x1d, 0x1e, 0x1f, 0x20, 0x85, 0xa0,
   0x1680, 0x2000, 0x2001, 0x2002, 0x2003, 0x2004, 0x2005, 0x2006, 0x2007,
   0x2008, 0x2009, 0x200a, 0x2028, 0x2029, 0x202f, 0x205f, 0x3000]

def isPySpace (c : Char) : Bool :=
  pySpaceCodes.contains c.toNat

/-- Membership in the character class `[A-Za-z0-9_]`, on code points. -/
def isKeyCharN (n : Nat) : Bool :=
  (65 ≤ n && n ≤ 90) || (97 ≤ n && n ≤ 122) || (48 ≤ n && n ≤ 57) || n == 95

def isKeyChar (c : Char) : Bool :=
  isKeyCharN c.toNat

/-! ### Python string primitives (strip, line splitting, find/replace) -/

/-- Remove trailing Python whitespace (the right half of `str.strip`). -/
def stripRight : List Char → List Char
  | [] => []
  | c :: cs =>
    match stripRight cs with
    | [] => if isPySpace c then [] else [c]
    | r => c :: r

/-- `str.strip()`: remove leading and trailing Python whitespace. -/
def pyStrip (cs : List Char) : List Char :=
  stripRight (cs.dropWhile isPySpace)

/-- Split a character stream into lines at `\n` (the final fragment after
the last newline is kept, possibly empty), mirroring iteration over a file. -/
def splitNl : List Char → List (List Char)
  | [] => [[]]
  | c :: cs =>
    if c = '\n' then [] :: splitNl cs
    else (splitNl cs).modifyHead (c :: ·)

/-- `line.split('=', 1)`: split at the first `=` (the caller guards on the
presence of `=`; without one the whole input is returned as the key part). -/
def splitFirstEq : List Char → List Char × List Char
  | [] => ([], [])
  | c :: cs =>
    if c = '=' then ([], cs)
    else
      let p := splitFirstEq cs
      (c :: p.1, p.2)

/-- `needle in haystack` on Python strings: contiguous-substring test. -/
def pyContains (needle : List Char) : List Char → Bool
  | [] => needle.isEmpty
  | c :: cs => needle.isPrefixOf (c :: cs) || pyContains needle cs

/-- One fuel-indexed step of `str.replace`: leftmost non-overlapping
replacement of `pat` by `sub`. Fuel is the length of the subject. -/
def pyReplaceAux (pat sub : List Char) : Nat → List Char → List Char
  | 0, cs => cs
  | _ + 1, [] => []
  | fuel + 1, c :: cs =>
    if pat ≠ [] && pat.isPrefixOf (c :: cs) then
      sub ++ pyReplaceAux pat sub fuel ((c :: cs).drop pat.length)
    else c :: pyReplaceAux pat sub fuel cs

/-- `s.replace(pat, sub)` for a non-empty pattern. -/
def pyReplace (pat sub cs : List Char) : List Char :=
  pyReplaceAux pat sub cs.length cs

/-- Universal-newline normalization performed by Python text-mode reads:
every `\r\n` and every remaining bare `\r` becomes `\n`. -/
def normNl (cs : List Char) : List Char :=
  pyReplace ['\r'] ['\n'] (pyReplace ['\r', '\n'] ['\n'] cs)

/-- Lexicographic strict comparison of code-point sequences, the order
Python uses for `str < str`. -/
def charListLt : List Char → List Char → Bool
  | [], [] => false
  | [], _ :: _ => true
  | _ :: _, [] => false
  | a :: as, b :: bs =>
    if a < b then true
    else if b < a then false
    else charListLt as bs

/-- `int(s)` on a decimal string: optional surrounding whitespace, optional
sign, then digits. (Python also accepts `_` digit grouping; that cosmetic
extension is not modelled.) Returns `none` where `int` raises `ValueError`. -/
def pyIntOfChars (cs : List Char) : Option Int :=
  let t := pyStrip cs
  let core : List Char → Option Nat := fun ds =>
    if ds = [] then none
    else if ds.all (fun c => c.isDigit) then
      some (ds.foldl (fun acc c => acc * 10 + (c.toNat - 48)) 0)
    else none
  match t with
  | '-' :: rest => (core rest).map (fun n => -(n : Int))
  | '+' :: rest => (core rest).map (fun n => (n : Int))
  | _ => (core t).map (fun n => (n : Int))

def pyInt (s : String) : Option Int :=
  pyIntOfChars s.data

/-! ### JSON-like document values

Documents handed to / produced by the external `json` and `yaml` libraries
are modelled by `JVal`; Python dicts appear as ordered association lists
(insertion order; the code never builds a dict with duplicate keys). -/

inductive JVal where
  | null
  | bool (b : Bool)
  | num (n : Int)
  | str (s : String)
  | arr (elems : List JVal)
  | obj (items : List (String × JVal))

/-- Python dict lookup `d[k]` / `d.get(k)` on an ordered assoc list. -/
def jGet (items : List (String × JVal)) (name : String) : Option JVal :=
  match items with
  | [] => none
  | kv :: rest => if kv.1 = name then some kv.2 else jGet rest name

/-- Python dict assignment `d[k] = v`: update in place if the key exists
(keeping its position), otherwise append at the end. -/
def assocSet (d : List (String × String)) (k v : String) : List (String × String) :=
  match d with
  | [] => [(k, v)]
  | kv :: rest => if kv.1 = k then (k, v) :: rest else kv :: assocSet rest k v

/-- JSON string escaping as `json.dumps(..., ensure_ascii=False)` performs
it: `"` and `\` are escaped, control characters use the short escapes or
`\u00XX`, everything else is emitted literally. -/
def jsonEscapeChar (c : Char) : List Char :=
  if c = '"' then ['\\', '"']
  else if c = '\\' then ['\\', '\\']
  else if c = '\n' then ['\\', 'n']
  else if c = '\t' then ['\\', 't']
  else if c = '\r' then ['\\', 'r']
  else if c = '\x08' then ['\\', 'b']
  else if c = '\x0c' then ['\\', 'f']
  else if c.toNat < 0x20 then
    ['\\', 'u', '0', '0', (Nat.digitChar (c.toNat / 16)), (Nat.digitChar (c.toNat % 16))]
  else [c]

def jsonQuote (s : String) : List Char :=
  '"' :: (s.data.map jsonEscapeChar).flatten ++ ['"']

def intRepr (n : Int) : List Char :=
  (if n < 0 then '-' :: (Nat.repr n.natAbs).data else (Nat.repr n.natAbs).data)

def indentChars (n : Nat) : List Char :=
  List.replicate n ' '

mutual

/-- `json.dumps(v, indent=2, ensure_ascii=False)`: block layout with
two-space indentation, `", "`/`": "` item separators collapsing to
newline-separated entries, empty containers printed inline. -/
def jsonDumpIndent2 (v : JVal) (level : Nat := 0) : List Char :=
  match v with
  | .null => "null".data
  | .bool b => if b then "true".data else "false".data
  | .num n => intRepr n
  | .str s => jsonQuote s
  | .arr [] => "[]".data
  | .arr (e :: es) =>
    '[' :: '\n' :: jsonDumpArr (e :: es) (level + 1) ++ '\n' :: indentChars (2 * level) ++ [']']
  | .obj [] => "\x7b\x7d".data
  | .obj (kv :: kvs) =>
    '\x7b' :: '\n' :: jsonDumpObj (kv :: kvs) (level + 1) ++ '\n' :: indentChars (2 * level) ++ ['\x7d']

def jsonDumpArr (l : List JVal) (level : Nat) : List Char :=
  match l with
  | [] => []
  | [e] => indentChars (2 * level) ++ jsonDumpIndent2 e level
  | e :: e2 :: es =>
    indentChars (2 * level) ++ jsonDumpIndent2 e level ++ ',' :: '\n' :: jsonDumpArr (e2 :: es) level

def jsonDumpObj (l : List (String × JVal)) (level : Nat) : List Char :=
  match l with
  | [] => []
  | [kv] => indentChars (2 * level) ++ jsonQuote kv.1 ++ ':' :: ' ' :: jsonDumpIndent2 kv.2 level
  | kv :: kv2 :: kvs =>
    indentChars (2 * level) ++ jsonQuote kv.1 ++ ':' :: ' ' :: jsonDumpIndent2 kv.2 level
      ++ ',' :: '\n' :: jsonDumpObj (kv2 :: kvs) level

end

/-- Whitespace accepted between JSON tokens. -/
def isJsonWs (c : Char) : Bool :=
  c = ' ' || c = '\t' || c = '\n' || c = '\r'

def skipJsonWs (cs : List Char) : List Char :=
  cs.dropWhile isJsonWs

def hexVal (c : Char) : Option Nat :=
  if '0' ≤ c && c ≤ '9' then some (c.toNat - 48)
  else if 'a' ≤ c && c ≤ 'f' then some (c.toNat - 87)
  else if 'A' ≤ c && c ≤ 'F' then some (c.toNat - 55)
  else none

/-- Parse the remainder of a JSON string literal (after the opening quote). -/
def jsonParseStr (fuel : Nat) (cs : List Char) : Option (List Char × List Char) :=
  match fuel, cs with
  | 0, _ => none
  | _ + 1, [] => none
  | fuel + 1, c :: rest =>
    if c = '"' then some ([], rest)
    else if c = '\\' then
      match rest with
      | [] => none
      | e :: rest2 =>
        let esc : Option (Char × List Char) :=
          if e = '"' then some ('"', rest2)
          else if e = '\\' then some ('\\', rest2)
          else if e = '/' then some ('/', rest2)
          else if e = 'b' then some ('\x08', rest2)
          else if e = 'f' then some ('\x0c', rest2)
          else if e = 'n' then some ('\n', rest2)
          else if e = 'r' then some ('\r', rest2)
          else if e = 't' then some ('\t', rest2)
          else if e = 'u' then
            match rest2 with
            | h1 :: h2 :: h3 :: h4 :: rest3 =>
              match hexVal h1, hexVal h2, hexVal h3, hexVal h4 with
              | some a, some b, some c2, some d =>
                some (Char.ofNat (((a * 16 + b) * 16 + c2) * 16 + d), rest3)
              | _, _, _, _ => none
            | _ => none
          else none
        match esc with
        | some (ch, rest3) =>
          match jsonParseStr fuel rest3 with
          | some (s, rem) => some (ch :: s, rem)
          | none => none
        | none => none
    else if c.toNat < 0x20 then none
    else
      match jsonParseStr fuel rest with
      | some (s, rem) => some (c :: s, rem)
      | none => none

mutual

/-- Recursive-descent model of `json.loads` restricted to the JSON subset
the repository feeds it (strings, integers, booleans, null, arrays,
objects); non-integer numerics are rejected rather than parsed. Returns the
parsed value and the unconsumed suffix. -/
def jsonParseVal (fuel : Nat) (cs : List Char) : Option (JVal × List Char) :=
  match fuel with
  | 0 => none
  | fuel + 1 =>
    match skipJsonWs cs with
    | [] => none
    | c :: rest =>
      if c = '"' then
        match jsonParseStr (fuel + 1) rest with
        | some (s, rem) => some (.str ⟨s⟩, rem)
        | none => none
      else if c = '[' then
        match skipJsonWs rest with
        | ']' :: rem => some (.arr [], rem)
        | other => jsonParseArrItems fuel other
      else if c = '\x7b' then
        match skipJsonWs rest with
        | '\x7d' :: rem => some (.obj [], rem)
        | other => jsonParseObjItems fuel other
      else if c = 't' then
        if "rue".data.isPrefixOf rest then some (.bool true, rest.drop 3) else none
      else if c = 'f' then
        if "alse".data.isPrefixOf rest then some (.bool false, rest.drop 4) else none
      else if c = 'n' then
        if "ull".data.isPrefixOf rest then some (.null, rest.drop 3) else none
      else if c = '-' || c.isDigit then
        let (sign, ds0) := if c = '-' then (true, rest) else (false, c :: rest)
        let digits := ds0.takeWhile Char.isDigit
        let rem := ds0.dropWhile Char.isDigit
        if digits = [] then none
        else
          match rem with
          | '.' :: _ => none
          | 'e' :: _ => none
          | 'E' :: _ => none
          | _ =>
            let n : Nat := digits.foldl (fun acc d => acc * 10 + (d.toNat - 48)) 0
            some (.num (if sign then -(n : Int) else (n : Int)), rem)
      else none

def jsonParseArrItems (fuel : Nat) (cs : List Char) : Option (JVal × List Char) :=
  match fuel with
  | 0 => none
  | fuel + 1 =>
    match jsonParseVal fuel cs with
    | none => none
    | some (v, rem) =>
      match skipJsonWs rem with
      | ',' :: rest =>
        match jsonParseArrItems fuel rest with
        | some (.arr vs, rem2) => some (.arr (v :: vs), rem2)
        | _ => none
      | ']' :: rest => some (.arr [v], rest)
      | _ => none

def jsonParseObjItems (fuel : Nat) (cs : List Char) : Option (JVal × List Char) :=
  match fuel with
  | 0 => none
  | fuel + 1 =>
    match skipJsonWs cs with
    | '"' :: rest =>
      match jsonParseStr fuel rest with
      | none => none
      | some (k, rem) =>
        match skipJsonWs rem with
        | ':' :: rest2 =>
          match jsonParseVal fuel rest2 with
          | none => none
          | some (v, rem2) =>
            match skipJsonWs rem2 with
            | ',' :: rest3 =>
              match jsonParseObjItems fuel rest3 with
              | some (.obj kvs, rem3) => some (.obj ((⟨k⟩, v) :: kvs), rem3)
              | _ => none
            | '\x7d' :: rest3 => some (.obj [(⟨k⟩, v)], rest3)
            | _ => none
        | _ => none
    | _ => none

end

/-- `json.loads`: parse one value and require only whitespace after it. -/
def jsonLoads (cs : List Char) : Option JVal :=
  match jsonParseVal (cs.length + 1) cs with
  | some (v, rem) => if skipJsonWs rem = [] then some v else none
  | none => none

/-! ### External serializer models (PyYAML)

The two `yaml.dump` call sites receive fully-built in-memory documents.
The external library is modelled as a deterministic encoder of that
document: its exact byte format is not reproduced (and no claim below
depends on it), only the fact that equal documents yield equal bytes. -/

/-- Model of `yaml.dump(d, default_flow_style=False, sort_keys=False)` for
the flat string-to-string mapping of the simple export. -/
def yamlDumpSimple (d : List (String × String)) : List Char :=
  (d.map (fun kv => kv.1.data ++ ':' :: ' ' :: kv.2.data ++ ['\n'])).flatten

/-- Model of `yaml.dump(doc, default_flow_style=False, sort_keys=False,
indent=2)` for the structured export document. -/
def yamlDumpDoc (doc : JVal) : List Char :=
  jsonDumpIndent2 doc

/-! ### The data model: variable records -/

/-- A variable record as the code passes it around (a dict whose six
recognised fields may each be present or absent). -/
structure PyVar where
  key : Option String
  value : Option String
  «protected» : Option Bool
  masked : Option Bool
  raw : Option Bool
  environment_scope : Option String
deriving DecidableEq

/-- The `--sort` choices of `list`/`download`. -/
inductive SortField where
  | key
  | «protected»
  | masked
  | raw
deriving DecidableEq

def sortFieldName : SortField → String
  | .key => "key"
  | .«protected» => "protected"
  | .masked => "masked"
  | .raw => "raw"

/-- A Python value as produced by `x.get(sort, '')`: the stored field value
(a string for `key`, a bool for the flag fields) or the string default `''`
when the field is absent. -/
inductive PyVal where
  | str (s : String)
  | bool (b : Bool)
deriving DecidableEq

/-- `x.get(sort, '')` of the sort lambda in `list`/`download`: note the
default is the *string* `''` for every field, including the boolean ones. -/
def pyGetSort (f : SortField) (v : PyVar) : PyVal :=
  match f with
  | .key => .str (v.key.getD "")
  | .«protected» =>
    match v.«protected» with
    | some b => .bool b
    | none => .str ""
  | .masked =>
    match v.masked with
    | some b => .bool b
    | none => .str ""
  | .raw =>
    match v.raw with
    | some b => .bool b
    | none => .str ""

/-- Python `<` on the values the sort key produces: strings compare
lexicographically by code point, booleans as `False < True`, and comparing
a bool against a str raises `TypeError` (modelled as `Except.error`). -/
def pyValLt : PyVal → PyVal → Except Unit Bool
  | .str a, .str b => .ok (charListLt a.data b.data)
  | .bool a, .bool b => .ok (!a && b)
  | _, _ => .error ()

/-! ### Key Validator (`validate_variable_key`, gitlab_secrets.py 39-97) -/

inductive KeyErr where
  | emptyKey
  | whitespaceKey (key : String)
  | invalidChars (key : String) (cs : List Char)
  | genericInvalid (key : String)
deriving DecidableEq

/-- Sorted-insert of a character, skipping duplicates. -/
def insertCh (c : Char) : List Char → List Char
  | [] => [c]
  | d :: ds =>
    if c < d then c :: d :: ds
    else if c = d then d :: ds
    else d :: insertCh c ds

/-- `sorted(set(l))` on characters: distinct offending characters in
increasing code-point order. -/
def dedupSort (l : List Char) : List Char :=
  l.foldr insertCh []

/-- `validate_variable_key`: empty/whitespace-only keys are rejected, then
any `\s` match is rejected, then the key must match `^[A-Za-z0-9_]+$`,
the error listing `sorted(set(re.findall(r'[^A-Za-z0-9_]', key)))`.
(The final generic branch is the source's unreachable fallback.) -/
def validate_variable_key (key : String) : Except KeyErr Unit :=
  if key.data = [] || pyStrip key.data = [] then .error .emptyKey
  else if key.data.any isPySpace then .error (.whitespaceKey key)
  else if key.data.all isKeyChar then .ok ()
  else if key.data.filter (fun c => !isKeyChar c) ≠ [] then
    .error (.invalidChars key (dedupSort (key.data.filter (fun c => !isKeyChar c))))
  else .error (.genericInvalid key)

/-! ### Sync Engine (create command, gitlab_secrets.py 258-408) -/

/-- An exception raised by the transport: an HTTP status when the exception
carries a `response`, otherwise only its rendered message. -/
structure PyError where
  status : Option Nat
  msg : String
deriving DecidableEq

/-- The `is_conflict` detection of `create`: status code 409 when a
`response` attribute exists, else substring matching on the message. -/
def isConflictErr (e : PyError) : Bool :=
  match e.status with
  | some c => c == 409
  | none => pyContains "409".data e.msg.data || pyContains "Conflict".data e.msg.data

/-- A call issued to the remote collaborator. -/
inductive Call where
  | create (key value : String) (kwargs : List (String × JVal))
  | update (key value : String) (kwargs : List (String × JVal))

inductive Outcome where
  | created
  | updated
  | failed (detail : PyError)
deriving DecidableEq

/-- How the remote store answers the (at most) one create and one update
call issued for a single record. -/
structure RemoteBehavior where
  createResult : Except PyError Unit
  updateResult : Except PyError Unit

/-- The create-then-maybe-update step of the sync engine (lines 303-330 for
the bulk path, 370-391 for the single path): try create; on a conflict with
upsert enabled try update once with the same field set; otherwise the
create error is the failure. Returns the outcome and the calls issued. -/
def syncApply (upsert : Bool) (k v : String) (kwargs : List (String × JVal))
    (rb : RemoteBehavior) : Outcome × List Call :=
  match rb.createResult with
  | .ok _ => (.created, [.create k v kwargs])
  | .error e =>
    if upsert && isConflictErr e then
      match rb.updateResult with
      | .ok _ => (.updated, [.create k v kwargs, .update k v kwargs])
      | .error ue => (.failed ue, [.create k v kwargs, .update k v kwargs])
    else (.failed e, [.create k v kwargs])

/-- Per-record optional-field merge of the bulk create path (lines
280-301): the record's own field wins; otherwise the CLI flag applies,
omitted when false; the CLI scope applies only when truthy and not `*`. -/
def mergeKwargs (cliProtected cliMasked cliRaw : Bool) (cliScope : String)
    (var : PyVar) : List (String × JVal) :=
  (match var.«protected» with
   | some b => [("protected", JVal.bool b)]
   | none => if cliProtected then [("protected", JVal.bool true)] else [])
  ++ (match var.masked with
   | some b => [("masked", JVal.bool b)]
   | none => if cliMasked then [("masked", JVal.bool true)] else [])
  ++ (match var.raw with
   | some b => [("raw", JVal.bool b)]
   | none => if cliRaw then [("raw", JVal.bool true)] else [])
  ++ (match var.environment_scope with
   | some s => [("environment_scope", JVal.str s)]
   | none =>
     if cliScope ≠ "" && cliScope ≠ "*" then [("environment_scope", JVal.str cliScope)]
     else [])

/-- The merge rule exactly as claim C5 words it: the record's explicit
value wins; otherwise the CLI default applies, omitted when it equals the
neutral value (`false` for booleans, `"*"` for the scope). -/
def mergeKwargsClaimC5 (cliProtected cliMasked cliRaw : Bool) (cliScope : String)
    (var : PyVar) : List (String × JVal) :=
  (match var.«protected» with
   | some b => [("protected", JVal.bool b)]
   | none => if cliProtected ≠ false then [("protected", JVal.bool cliProtected)] else [])
  ++ (match var.masked with
   | some b => [("masked", JVal.bool b)]
   | none => if cliMasked ≠ false then [("masked", JVal.bool cliMasked)] else [])
  ++ (match var.raw with
   | some b => [("raw", JVal.bool b)]
   | none => if cliRaw ≠ false then [("raw", JVal.bool cliRaw)] else [])
  ++ (match var.environment_scope with
   | some s => [("environment_scope", JVal.str s)]
   | none => if cliScope ≠ "*" then [("environment_scope", JVal.str cliScope)] else [])

/-- The amended merge rule: as claim C5, except that an *empty* CLI scope
is also omitted (the code tests the scope for truthiness before comparing
it to `*`). -/
def mergeKwargsAmendedC5 (cliProtected cliMasked cliRaw : Bool) (cliScope : String)
    (var : PyVar) : List (String × JVal) :=
  (match var.«protected» with
   | some b => [("protected", JVal.bool b)]
   | none => if cliProtected ≠ false then [("protected", JVal.bool cliProtected)] else [])
  ++ (match var.masked with
   | some b => [("masked", JVal.bool b)]
   | none => if cliMasked ≠ false then [("masked", JVal.bool cliMasked)] else [])
  ++ (match var.raw with
   | some b => [("raw", JVal.bool b)]
   | none => if cliRaw ≠ false then [("raw", JVal.bool cliRaw)] else [])
  ++ (match var.environment_scope with
   | some s => [("environment_scope", JVal.str s)]
   | none =>
     if cliScope ≠ "*" ∧ cliScope ≠ "" then [("environment_scope", JVal.str cliScope)]
     else [])

/-- Outcome of one entry of a bulk create batch. -/
inductive BatchOutcome where
  | missingKey
  | invalidKey (e : KeyErr)
  | created
  | updated
  | failed (e : PyError)
deriving DecidableEq

def isSuccess : BatchOutcome → Bool
  | .created => true
  | .updated => true
  | _ => false

def liftOutcome : Outcome → BatchOutcome
  | .created => .created
  | .updated => .updated
  | .failed e => .failed e

/-- One iteration of the bulk-create loop (lines 261-330): missing key and
key-validation failures short-circuit without contacting the remote;
otherwise the merged field set is sent through `syncApply`. -/
def processEntry (upsert cliP cliM cliR : Bool) (cliScope : String)
    (e : PyVar × RemoteBehavior) : BatchOutcome × List Call :=
  let k := e.1.key.getD ""
  if k = "" then (.missingKey, [])
  else
    match validate_variable_key k with
    | .error err => (.invalidKey err, [])
    | .ok _ =>
      let kw := mergeKwargs cliP cliM cliR cliScope e.1
      let r := syncApply upsert k (e.1.value.getD "") kw e.2
      (liftOutcome r.1, r.2)

/-- The bulk-create batch (lines 258-334): every entry is processed, each
contributing to exactly one of the success/failure counters. Returns the
per-entry outcome log and the two counters. -/
def processBatch (upsert cliP cliM cliR : Bool) (cliScope : String)
    (entries : List (PyVar × RemoteBehavior)) : List BatchOutcome × Nat × Nat :=
  entries.foldl
    (fun acc e =>
      let r := processEntry upsert cliP cliM cliR cliScope e
      (acc.1 ++ [r.1],
       if isSuccess r.1 then (acc.2.1 + 1, acc.2.2) else (acc.2.1, acc.2.2 + 1)))
    ([], 0, 0)

inductive SingleResult where
  | usageError
  | invalidKey (e : KeyErr)
  | done (o : Outcome)
deriving DecidableEq

/-- The single-record create path (lines 338-408, `--file` absent): both
`key` and `value` must be present and non-empty (Click passes `None` for an
omitted argument, and `if not key or not value` also rejects empty
strings); only then is the key validated and the remote contacted. -/
def singleCreate (key value : Option String) (cliP cliM cliR : Bool)
    (cliScope : String) (upsert : Bool) (rb : RemoteBehavior) :
    SingleResult × List Call :=
  let k := key.getD ""
  let v := value.getD ""
  if k = "" || v = "" then (.usageError, [])
  else
    match validate_variable_key k with
    | .error e => (.invalidKey e, [])
    | .ok _ =>
      let kw := mergeKwargs cliP cliM cliR cliScope ⟨none, none, none, none, none, none⟩
      let r := syncApply upsert k v kw rb
      (.done r.1, r.2)

/-! ### Remote Paginator (`list_variables`, gitlab_client.py 104-166) -/

/-- One page answer of the remote store: the entries of the page plus the
optional `X-Total-Pages` header value. -/
structure PageResponse (α : Type) where
  entries : List α
  totalPagesHeader : Option String

/-- Total-page extraction: `response.headers.get('X-Total-Pages', '1')`
converted with `int`, any conversion failure defaulting to 1. -/
def pageTotal (r : PageResponse α) : Int :=
  match r.totalPagesHeader with
  | none => 1
  | some s => (pyInt s).getD 1

/-- The pagination loop, fuel-indexed (the Python `while True` loop has no
structural bound; every theorem below supplies enough fuel). Returns the
accumulated entries and the `(page, per_page)` request log. -/
def listVarsLoop (remote : Nat → PageResponse α) : Nat → Nat → List α × List (Nat × Nat)
  | 0, _ => ([], [])
  | fuel + 1, page =>
    let resp := remote page
    if (page : Int) ≥ pageTotal resp then (resp.entries, [(page, 100)])
    else
      let r := listVarsLoop remote fuel (page + 1)
      (resp.entries ++ r.1, (page, 100) :: r.2)

/-- `list_variables`: start at page 1 with `per_page=100`. -/
def list_variables (remote : Nat → PageResponse α) (fuel : Nat) :
    List α × List (Nat × Nat) :=
  listVarsLoop remote fuel 1

/-! ### Format Codec — serialization (download command, gitlab_secrets.py 819-1038) -/

/-- A record as the dict the code passes to the serializers: its present
fields in canonical order. -/
def varToItems (v : PyVar) : List (String × JVal) :=
  (match v.key with | some s => [("key", JVal.str s)] | none => [])
  ++ (match v.value with | some s => [("value", JVal.str s)] | none => [])
  ++ (match v.«protected» with | some b => [("protected", JVal.bool b)] | none => [])
  ++ (match v.masked with | some b => [("masked", JVal.bool b)] | none => [])
  ++ (match v.raw with | some b => [("raw", JVal.bool b)] | none => [])
  ++ (match v.environment_scope with | some s => [("environment_scope", JVal.str s)] | none => [])

/-- `{k: v for k, v in var.items() if k != 'value'}`: the value-stripping
dict comprehension of the structured/JSON redacted export. -/
def stripValueItems (items : List (String × JVal)) : List (String × JVal) :=
  items.filter (fun kv => kv.1 ≠ "value")

/-- The embedded-JSON pretty-printing heuristic of the JSON export (lines
982-1000): a value containing a literal backslash-n whose strip starts with
a brace or bracket is reparsed (with backslash-n turned into newlines) and,
when that parse succeeds, re-encoded with two-space indentation and its
newlines re-escaped; otherwise it is left untouched. -/
def prettifyValue (s : String) : String :=
  let cs := s.data
  if pyContains ['\\', 'n'] cs then
    let stripped := pyStrip cs
    if stripped.head? = some '\x7b' || stripped.head? = some '[' then
      match jsonLoads (pyReplace ['\\', 'n'] ['\n'] cs) with
      | some inner => ⟨pyReplace ['\n'] ['\\', 'n'] (jsonDumpIndent2 inner)⟩
      | none => s
    else s
  else s

/-- The per-variable mutation loop of the JSON export (lines 980-1000):
only a present, non-empty string `value` entry is touched. -/
def prettifyEntry (items : List (String × JVal)) : List (String × JVal) :=
  items.map (fun kv =>
    if kv.1 = "value" then
      match kv.2 with
      | JVal.str s => (kv.1, if s ≠ "" then JVal.str (prettifyValue s) else JVal.str s)
      | other => (kv.1, other)
    else kv)

/-- The document written by the JSON export (lines 955-1003): `variables`
(full or value-stripped), `total`, `sorted_by`; with values included, the
pretty-printing heuristic is applied to each value first. -/
def downloadJsonDoc (includeValues : Bool) (sortF : SortField) (vars : List PyVar) : JVal :=
  let items := vars.map varToItems
  let items2 :=
    if includeValues then items.map prettifyEntry
    else items.map stripValueItems
  JVal.obj
    [("variables", JVal.arr (items2.map JVal.obj)),
     ("total", JVal.num vars.length),
     ("sorted_by", JVal.str (sortFieldName sortF))]

def downloadJson (includeValues : Bool) (sortF : SortField) (vars : List PyVar) : List Char :=
  jsonDumpIndent2 (downloadJsonDoc includeValues sortF vars)

/-- Decimal digit rendering, fuel-indexed (`n + 1` is always enough fuel). -/
def natReprCharsAux : Nat → Nat → List Char
  | 0, _ => []
  | fuel + 1, n =>
    if n < 10 then [Nat.digitChar n]
    else natReprCharsAux fuel (n / 10) ++ [Nat.digitChar (n % 10)]

/-- Decimal rendering of a natural number (the digits of `str(n)` in the
header f-strings). -/
def natReprChars (n : Nat) : List Char :=
  natReprCharsAux (n + 1) n

/-- The three-line comment header written by the simple-YAML and .env
exports. -/
def envHeader (n : Nat) (sortF : SortField) : List Char :=
  "# GitLab CI/CD Variables".data
    ++ '\n' :: ("# Total: ".data ++ natReprChars n)
    ++ '\n' :: ("# Sorted by: ".data ++ (sortFieldName sortF).data)
    ++ '\n' :: '\n' :: []

/-- One data line of the .env export (lines 1016-1024). -/
def envLine (includeValues : Bool) (v : PyVar) : List Char :=
  (v.key.getD "").data ++ '=' :: (if includeValues then (v.value.getD "").data else []) ++ ['\n']

/-- The .env export (lines 1007-1024): header comments then one
`key=value` line per record (empty right-hand side when redacted). -/
def downloadEnv (includeValues : Bool) (sortF : SortField) (vars : List PyVar) : List Char :=
  envHeader vars.length sortF ++ (vars.map (envLine includeValues)).flatten

/-- The flat dict of the simple-YAML export (lines 913-920), built with
Python dict-assignment semantics. -/
def simpleData (includeValues : Bool) (vars : List PyVar) : List (String × String) :=
  vars.foldl
    (fun d v => assocSet d (v.key.getD "") (if includeValues then v.value.getD "" else ""))
    []

/-- The simple-YAML export (lines 912-927): the same header comments, then
the dumped flat mapping. -/
def downloadYamlSimple (includeValues : Bool) (sortF : SortField) (vars : List PyVar) : List Char :=
  envHeader vars.length sortF ++ yamlDumpSimple (simpleData includeValues vars)

/-- The structured-YAML export (lines 929-951): the same document shape as
the JSON export, without the pretty-printing pass. -/
def downloadYamlStructured (includeValues : Bool) (sortF : SortField) (vars : List PyVar) : List Char :=
  let items := vars.map varToItems
  let items2 := if includeValues then items else items.map stripValueItems
  yamlDumpDoc
    (JVal.obj
      [("variables", JVal.arr (items2.map JVal.obj)),
       ("total", JVal.num vars.length),
       ("sorted_by", JVal.str (sortFieldName sortF))])

inductive YamlStyle where
  | simple
  | structured
deriving DecidableEq

inductive DlFormat where
  | yaml (style : Option YamlStyle)
  | json
  | env
deriving DecidableEq

/-- The format dispatch of `download` (lines 906-1024): YAML defaults to
the simple style when no style flag is given. -/
def downloadSerialize (fmt : DlFormat) (includeValues : Bool) (sortF : SortField)
    (vars : List PyVar) : List Char :=
  match fmt with
  | .yaml style =>
    if style = none || style = some .simple then downloadYamlSimple includeValues sortF vars
    else downloadYamlStructured includeValues sortF vars
  | .json => downloadJson includeValues sortF vars
  | .env => downloadEnv includeValues sortF vars

/-! ### Format Codec — parsing (create command, gitlab_secrets.py 195-250) -/

/-- One line of the .env reader (lines 238-247): strip, drop blank and
`#`-comment lines, require an `=`, split at the first `=`, strip both
halves. Lines without `=` are silently ignored. -/
def parseEnvLine (l : List Char) : Option (String × String) :=
  let s := pyStrip l
  if s = [] then none
  else if s.head? = some '#' then none
  else if pyContains ['='] s then
    let p := splitFirstEq s
    some (⟨pyStrip p.1⟩, ⟨pyStrip p.2⟩)
  else none

/-- The .env reader over a whole file (text-mode line iteration). -/
def parseEnvFile (content : List Char) : List (String × String) :=
  (splitNl (normNl content)).filterMap parseEnvLine

/-- The top-level shape dispatch shared by the JSON and YAML readers
(lines 204-233): a mapping with a `variables` entry yields that list, any
other mapping is turned into bare key/value entries, a top-level list is
used directly, anything else is a format error. -/
def parseVarsDoc (doc : JVal) : Except Unit (List JVal) :=
  match doc with
  | .obj items =>
    match jGet items "variables" with
    | some (JVal.arr l) => .ok l
    | some _ => .error ()
    | none =>
      .ok (items.map (fun kv => JVal.obj [("key", JVal.str kv.1), ("value", kv.2)]))
  | .arr l => .ok l
  | _ => .error ()

def jGetStr (items : List (String × JVal)) (name : String) : Option String :=
  match jGet items name with
  | some (JVal.str s) => some s
  | _ => none

def jGetBool (items : List (String × JVal)) (name : String) : Option Bool :=
  match jGet items name with
  | some (JVal.bool b) => some b
  | _ => none

/-- Read a parsed entry back into a record through the six `var.get`
field accesses the create/update loops perform. -/
def entryToVar (j : JVal) : PyVar :=
  match j with
  | .obj items =>
    { key := jGetStr items "key"
      value := jGetStr items "value"
      «protected» := jGetBool items "protected"
      masked := jGetBool items "masked"
      raw := jGetBool items "raw"
      environment_scope := jGetStr items "environment_scope" }
  | _ => ⟨none, none, none, none, none, none⟩

/-! ### Filter/Sort Pipeline (list command, gitlab_secrets.py 754-773) -/

/-- Stable monadic insertion into an already-sorted list; comparisons may
raise (`Except.error`), as Python comparisons between a bool and a str do. -/
def insertE (cmp : α → α → Except Unit Bool) (x : α) : List α → Except Unit (List α)
  | [] => .ok [x]
  | y :: ys => do
    let b ← cmp x y
    if b then pure (x :: y :: ys)
    else do
      let r ← insertE cmp x ys
      pure (y :: r)

/-- `list.sort(key=...)` modelled as a stable insertion sort in the
exception monad. For comparator results this is extensionally the same as
CPython timsort: both produce the unique stable order when every performed
comparison succeeds, and both raise on the first comparison between
incomparable sort keys (which, for a two-typed key set, is forced). -/
def sortE (cmp : α → α → Except Unit Bool) (l : List α) : Except Unit (List α) :=
  l.foldlM (fun acc x => insertE cmp x acc) []

/-- `list.sort(key=..., reverse=...)`: CPython implements `reverse=True`
by reversing, sorting stably ascending, and reversing again. -/
def pySortList (cmp : α → α → Except Unit Bool) (rev : Bool) (l : List α) :
    Except Unit (List α) :=
  if rev then (sortE cmp l.reverse).map List.reverse
  else sortE cmp l

/-- The comparator induced by `key=lambda x: x.get(sort, '')`. -/
def sortCmp (f : SortField) (a b : PyVar) : Except Unit Bool :=
  pyValLt (pyGetSort f a) (pyGetSort f b)

/-- The list/download filter-then-sort pipeline (lines 754-773): an
optional compiled-pattern search over each record's key keeps matching
records, then the collection is sorted on the chosen field. The compiled
case-insensitive regex is abstracted as its `pattern.search` boolean. -/
def listPipeline (pat : Option (String → Bool)) (f : SortField) (rev : Bool)
    (vars : List PyVar) : Except Unit (List PyVar) :=
  let fl :=
    match pat with
    | none => vars
    | some q => vars.filter (fun v => q (v.key.getD ""))
  pySortList (sortCmp f) rev fl

/-- Pure stable insertion used to state what `sortE` computes when no
comparison raises. -/
def insertP (lt : α → α → Bool) (x : α) : List α → List α
  | [] => [x]
  | y :: ys => if lt x y then x :: y :: ys else y :: insertP lt x ys

def sortP (lt : α → α → Bool) (l : List α) : List α :=
  l.foldl (fun acc x => insertP lt x acc) []

/-! ### Auxiliary predicates used by claim statements -/

/-- Two records that agree on every field except (possibly) `value`. -/
def exceptValueEq (a b : PyVar) : Prop :=
  a.key = b.key ∧ a.«protected» = b.«protected» ∧ a.masked = b.masked
    ∧ a.raw = b.raw ∧ a.environment_scope = b.environment_scope

/-- The runtime type of a sort key, as far as comparability is concerned. -/
def isStrVal : PyVal → Bool
  | .str _ => true
  | .bool _ => false

def strValOf : PyVal → String
  | .str s => s
  | .bool _ => ""

def boolValOf : PyVal → Bool
  | .str _ => false
  | .bool b => b

/-- A valid single-line `.env`-exportable record: present key made of
`[A-Za-z0-9_]`, and a value (defaulting to the empty string) that is a
single line equal to its own strip. -/
def envCleanVar (v : PyVar) : Prop :=
  (∃ k, v.key = some k ∧ k.data ≠ [] ∧ ∀ c ∈ k.data, isKeyChar c = true)
  ∧ (∀ c ∈ (v.value.getD "").data, c ≠ '\n' ∧ c ≠ '\r')
  ∧ pyStrip (v.value.getD "").data = (v.value.getD "").data

/-! ### Basic character and string lemmas -/

theorem keyChar_not_space {c : Char} (h : isKeyChar c = true) : isPySpace c = false := by
  by_contra hsp
  rw [Bool.not_eq_false] at hsp
  have hm : c.toNat ∈ pySpaceCodes := by
    simpa [isPySpace, List.contains] using hsp
  have hk : (((65 ≤ c.toNat ∧ c.toNat ≤ 90) ∨ (97 ≤ c.toNat ∧ c.toNat ≤ 122))
      ∨ (48 ≤ c.toNat ∧ c.toNat ≤ 57)) ∨ c.toNat = 95 := by
    simpa [isKeyChar, isKeyCharN, Bool.or_eq_true, Bool.and_eq_true,
      decide_eq_true_eq, Nat.beq_eq_true_eq] using h
  simp only [pySpaceCodes, List.mem_cons, List.not_mem_nil, or_false] at hm
  omega

theorem keyChar_ne_of_code {c : Char} (h : isKeyChar c = true) (n : Nat)
    (hn : isKeyCharN n = false) : c.toNat ≠ n := by
  intro he
  rw [isKeyChar, he, hn] at h
  exact Bool.false_ne_true h

theorem stripRight_eq_self {l : List Char}
    (h : ∀ c, l.getLast? = some c → isPySpace c = false) : stripRight l = l := by
  induction l with
  | nil => rfl
  | cons c cs ih =>
    cases cs with
    | nil =>
      have := h c rfl
      simp [stripRight, this]
    | cons d ds =>
      have hr : stripRight (d :: ds) = d :: ds := by
        apply ih
        intro e he
        apply h
        rwa [List.getLast?_cons_cons]
      conv_lhs => rw [stripRight]
      rw [hr]

theorem stripRight_of_head {c : Char} {cs : List Char} (hc : isPySpace c = false) :
    stripRight (c :: cs) ≠ [] ∧ (stripRight (c :: cs)).head? = some c := by
  cases hr : stripRight cs with
  | nil => simp [stripRight, hr, hc]
  | cons r rs => simp [stripRight, hr]

theorem dropWhile_eq_self_of_head {p : Char → Bool} {l : List Char} {c : Char}
    (h : l.head? = some c) (hc : p c = false) : l.dropWhile p = l := by
  rcases List.head?_eq_some_iff.1 h with ⟨ys, rfl⟩
  simp [List.dropWhile_cons, hc]

theorem pyStrip_eq_self {l : List Char}
    (hh : ∀ c, l.head? = some c → isPySpace c = false)
    (hl : ∀ c, l.getLast? = some c → isPySpace c = false) : pyStrip l = l := by
  cases l with
  | nil => rfl
  | cons c cs =>
    have h1 : (c :: cs).dropWhile isPySpace = c :: cs :=
      dropWhile_eq_self_of_head rfl (hh c rfl)
    rw [pyStrip, h1]
    exact stripRight_eq_self hl

theorem pyStrip_all_nonspace {l : List Char} (h : ∀ c ∈ l, isPySpace c = false) :
    pyStrip l = l := by
  apply pyStrip_eq_self
  · intro c hc
    rcases List.head?_eq_some_iff.1 hc with ⟨ys, rfl⟩
    exact h c (List.mem_cons_self ..)
  · intro c hc
    rcases List.getLast?_eq_some_iff.1 hc with ⟨ys, rfl⟩
    exact h c (by simp)

theorem pyStrip_head {c : Char} {l : List Char} (h : l.head? = some c)
    (hc : isPySpace c = false) : pyStrip l ≠ [] ∧ (pyStrip l).head? = some c := by
  rcases List.head?_eq_some_iff.1 h with ⟨ys, rfl⟩
  have h1 : (c :: ys).dropWhile isPySpace = c :: ys :=
    dropWhile_eq_self_of_head rfl hc
  rw [pyStrip, h1]
  exact stripRight_of_head hc

theorem splitNl_cons_nl (b : List Char) : splitNl ('\n' :: b) = [] :: splitNl b := by
  simp [splitNl]

theorem splitNl_append_of_not_nl {a : List Char} (b : List Char) (h : '\n' ∉ a) :
    splitNl (a ++ b) = (splitNl b).modifyHead (a ++ ·) := by
  induction a with
  | nil =>
    rw [List.nil_append]
    cases hb : splitNl b <;> simp [hb]
  | cons c a ih =>
    have hc : c ≠ '\n' := fun he => h (he ▸ List.mem_cons_self ..)
    have ha : '\n' ∉ a := fun hm => h (List.mem_cons_of_mem _ hm)
    rw [List.cons_append]
    show splitNl (c :: (a ++ b)) = _
    rw [splitNl]
    simp only [hc, if_false]
    rw [ih ha]
    cases hb : splitNl b <;> simp [hb]

theorem splitNl_line {payload : List Char} (rest : List Char) (h : '\n' ∉ payload) :
    splitNl (payload ++ '\n' :: rest) = payload :: splitNl rest := by
  rw [splitNl_append_of_not_nl _ h, splitNl_cons_nl]
  simp

theorem splitFirstEq_append {k : List Char} (v : List Char) (h : '=' ∉ k) :
    splitFirstEq (k ++ '=' :: v) = (k, v) := by
  induction k with
  | nil => simp [splitFirstEq]
  | cons c cs ih =>
    have hc : c ≠ '=' := fun he => h (he ▸ List.mem_cons_self ..)
    have hcs : '=' ∉ cs := fun hm => h (List.mem_cons_of_mem _ hm)
    rw [List.cons_append]
    show splitFirstEq (c :: (cs ++ '=' :: v)) = _
    rw [splitFirstEq]
    simp [hc, ih hcs]

theorem pyContains_of_mem {c : Char} {l : List Char} (h : c ∈ l) :
    pyContains [c] l = true := by
  induction l with
  | nil => cases h
  | cons d ds ih =>
    rcases List.mem_cons.1 h with rfl | hm
    · simp [pyContains, List.isPrefixOf]
    · rw [pyContains, ih hm]
      simp

theorem pyReplaceAux_id {p0 : Char} {ps sub : List Char} :
    ∀ (fuel : Nat) (cs : List Char), p0 ∉ cs →
      pyReplaceAux (p0 :: ps) sub fuel cs = cs := by
  intro fuel
  induction fuel with
  | zero => intro cs _; rfl
  | succ n ih =>
    intro cs h
    cases cs with
    | nil => rfl
    | cons c cs =>
      have hc : p0 ≠ c := fun he => h (he ▸ List.mem_cons_self ..)
      have hpre : (p0 :: ps).isPrefixOf (c :: cs) = false := by
        simp [List.isPrefixOf, hc]
      rw [pyReplaceAux]
      simp only [hpre, Bool.and_false, if_false]
      rw [ih cs (fun hm => h (List.mem_cons_of_mem _ hm))]
      simp

theorem pyReplace_id {p0 : Char} {ps sub cs : List Char} (h : p0 ∉ cs) :
    pyReplace (p0 :: ps) sub cs = cs :=
  pyReplaceAux_id _ _ h

theorem normNl_eq_self {cs : List Char} (h : '\r' ∉ cs) : normNl cs = cs := by
  rw [normNl, pyReplace_id h, pyReplace_id h]

/-! ### Order lemmas for the validator and the sort pipeline -/

theorem mem_insertCh {a c : Char} : ∀ {l : List Char}, a ∈ insertCh c l ↔ a = c ∨ a ∈ l := by
  intro l
  induction l with
  | nil => simp [insertCh]
  | cons d ds ih =>
    by_cases h1 : c < d
    · simp [insertCh, h1]
    · by_cases h2 : c = d
      · subst h2
        simp only [insertCh, if_neg h1, if_pos rfl]
        constructor
        · intro h
          exact Or.inr h
        · rintro (rfl | h)
          · exact List.mem_cons_self ..
          · exact h
      · simp only [insertCh, if_neg h1, if_neg h2, List.mem_cons, ih]
        tauto

theorem pairwise_insertCh {c : Char} :
    ∀ {l : List Char}, l.Pairwise (· < ·) → (insertCh c l).Pairwise (· < ·) := by
  intro l
  induction l with
  | nil => intro; simp [insertCh]
  | cons d ds ih =>
    intro hp
    rcases List.pairwise_cons.1 hp with ⟨hd, hds⟩
    by_cases h1 : c < d
    · rw [insertCh, if_pos h1]
      refine List.pairwise_cons.2 ⟨?_, hp⟩
      intro b hb
      rcases List.mem_cons.1 hb with rfl | hm
      · exact h1
      · exact lt_trans h1 (hd b hm)
    · by_cases h2 : c = d
      · rw [insertCh, if_neg h1, if_pos h2]
        exact hp
      · rw [insertCh, if_neg h1, if_neg h2]
        refine List.pairwise_cons.2 ⟨?_, ih hds⟩
        intro b hb
        rcases mem_insertCh.1 hb with rfl | hm
        · rcases lt_trichotomy b d with h | h | h
          · exact absurd h h1
          · exact absurd h h2
          · exact h
        · exact hd b hm

theorem mem_dedupSort {a : Char} : ∀ {l : List Char}, a ∈ dedupSort l ↔ a ∈ l := by
  intro l
  induction l with
  | nil => simp [dedupSort]
  | cons c cs ih =>
    show a ∈ insertCh c (dedupSort cs) ↔ _
    rw [mem_insertCh, ih]
    simp

theorem pairwise_dedupSort : ∀ {l : List Char}, (dedupSort l).Pairwise (· < ·) := by
  intro l
  induction l with
  | nil => simp [dedupSort]
  | cons c cs ih => exact pairwise_insertCh ih

theorem charListLt_irrefl : ∀ a : List Char, charListLt a a = false := by
  intro a
  induction a with
  | nil => rfl
  | cons c cs ih => simp [charListLt, ih]

theorem charListLt_asymm :
    ∀ a b : List Char, charListLt a b = true → charListLt b a = false := by
  intro a
  induction a with
  | nil =>
    intro b _
    cases b <;> rfl
  | cons x xs ih =>
    intro b h
    cases b with
    | nil => exact absurd h (by simp [charListLt])
    | cons y ys =>
      rw [charListLt] at h ⊢
      by_cases h1 : x < y
      · have h2 : ¬y < x := lt_asymm h1
        simp [h1, h2]
      · by_cases h2 : y < x
        · rw [if_neg h1, if_pos h2] at h
          exact absurd h (by simp)
        · rw [if_neg h1, if_neg h2] at h
          rw [if_neg h2, if_neg h1]
          exact ih ys h

theorem charListLt_trans :
    ∀ a b c : List Char, charListLt a b = true → charListLt b c = true →
      charListLt a c = true := by
  intro a
  induction a with
  | nil =>
    intro b c hab hbc
    cases b with
    | nil => exact absurd hab (by simp [charListLt])
    | cons y ys =>
      cases c with
      | nil => exact absurd hbc (by simp [charListLt])
      | cons z zs => rfl
  | cons x xs ih =>
    intro b c hab hbc
    cases b with
    | nil => exact absurd hab (by simp [charListLt])
    | cons y ys =>
      cases c with
      | nil => exact absurd hbc (by simp [charListLt])
      | cons z zs =>
        rw [charListLt] at hab hbc ⊢
        by_cases hxy : x < y
        · by_cases hyz : y < z
          · simp [lt_trans hxy hyz]
          · by_cases hzy : z < y
            · rw [if_neg hyz, if_pos hzy] at hbc
              exact absurd hbc (by simp)
            · have : y = z := le_antisymm (not_lt.1 hzy) (not_lt.1 hyz)
              subst this
              simp [hxy]
        · by_cases hyx : y < x
          · rw [if_neg hxy, if_pos hyx] at hab
            exact absurd hab (by simp)
          · have hxey : x = y := le_antisymm (not_lt.1 hyx) (not_lt.1 hxy)
            subst hxey
            rw [if_neg hxy, if_neg hxy] at hab
            by_cases hyz : x < z
            · simp [hyz]
            · by_cases hzy : z < x
              · rw [if_neg hyz, if_pos hzy] at hbc
                exact absurd hbc (by simp)
              · rw [if_neg hyz, if_neg hzy] at hbc ⊢
                exact ih ys zs hab hbc

/-! ### Generic lemmas about the modelled `list.sort` -/

theorem mem_insertP {α : Type} {lt : α → α → Bool} {x a : α} :
    ∀ {acc : List α}, a ∈ insertP lt x acc ↔ a = x ∨ a ∈ acc := by
  intro acc
  induction acc with
  | nil => simp [insertP]
  | cons y ys ih =>
    by_cases h : lt x y = true
    · simp [insertP, h]
    · rw [insertP, if_neg h]
      simp only [List.mem_cons, ih]
      tauto

theorem insertE_bridge {α : Type} {cmp : α → α → Except Unit Bool} {lt : α → α → Bool}
    {G : α → Prop} (hcmp : ∀ x y, G x → G y → cmp x y = .ok (lt x y)) {x : α} (hx : G x) :
    ∀ {acc : List α}, (∀ y ∈ acc, G y) → insertE cmp x acc = .ok (insertP lt x acc) := by
  intro acc
  induction acc with
  | nil => intro; rfl
  | cons y ys ih =>
    intro hacc
    have hy : G y := hacc y (List.mem_cons_self ..)
    have hys : ∀ z ∈ ys, G z := fun z hz => hacc z (List.mem_cons_of_mem _ hz)
    rw [insertE, hcmp x y hx hy]
    by_cases h : lt x y = true
    · simp only [h, insertP, if_true]
      rfl
    · rw [Bool.not_eq_true] at h
      simp only [h, insertP]
      rw [ih hys]
      rfl

theorem sortE_bridge_aux {α : Type} {cmp : α → α → Except Unit Bool} {lt : α → α → Bool}
    {G : α → Prop} (hcmp : ∀ x y, G x → G y → cmp x y = .ok (lt x y)) :
    ∀ (l acc : List α), (∀ x ∈ l, G x) → (∀ y ∈ acc, G y) →
      List.foldlM (fun acc x => insertE cmp x acc) acc l
        = .ok (List.foldl (fun acc x => insertP lt x acc) acc l) := by
  intro l
  induction l with
  | nil => intro acc _ _; rfl
  | cons x xs ih =>
    intro acc hl hacc
    have hx : G x := hl x (List.mem_cons_self ..)
    have hxs : ∀ z ∈ xs, G z := fun z hz => hl z (List.mem_cons_of_mem _ hz)
    rw [List.foldlM_cons, insertE_bridge hcmp hx hacc]
    have hacc2 : ∀ y ∈ insertP lt x acc, G y := by
      intro y hy
      rcases mem_insertP.1 hy with rfl | hm
      · exact hx
      · exact hacc y hm
    simpa [Except.bind] using ih (insertP lt x acc) hxs hacc2

theorem sortE_bridge {α : Type} {cmp : α → α → Except Unit Bool} {lt : α → α → Bool}
    {G : α → Prop} (hcmp : ∀ x y, G x → G y → cmp x y = .ok (lt x y))
    {l : List α} (hl : ∀ x ∈ l, G x) : sortE cmp l = .ok (sortP lt l) :=
  sortE_bridge_aux hcmp l [] hl (by simp)

theorem insertP_perm {α : Type} {lt : α → α → Bool} {x : α} :
    ∀ acc : List α, List.Perm (insertP lt x acc) (x :: acc) := by
  intro acc
  induction acc with
  | nil => simp [insertP]
  | cons y ys ih =>
    by_cases h : lt x y = true
    · simp [insertP, h]
    · rw [insertP, if_neg h]
      exact List.Perm.trans (List.Perm.cons y ih) (List.Perm.swap x y ys)

theorem sortP_perm_aux {α : Type} {lt : α → α → Bool} :
    ∀ (l acc : List α),
      List.Perm (List.foldl (fun acc x => insertP lt x acc) acc l) (l ++ acc) := by
  intro l
  induction l with
  | nil => intro acc; simp
  | cons x xs ih =>
    intro acc
    refine List.Perm.trans (ih (insertP lt x acc)) ?_
    exact List.Perm.trans (List.Perm.append_left xs (insertP_perm acc)) List.perm_middle

theorem sortP_perm {α : Type} {lt : α → α → Bool} (l : List α) :
    List.Perm (sortP lt l) l := by
  simpa using sortP_perm_aux l []

theorem insertP_sorted {α : Type} {lt : α → α → Bool}
    (hasym : ∀ a b, lt a b = true → lt b a = false)
    (htrans : ∀ a b c, lt a b = true → lt b c = true → lt a c = true) {x : α} :
    ∀ {acc : List α}, acc.Pairwise (fun a b => lt b a = false) →
      (insertP lt x acc).Pairwise (fun a b => lt b a = false) := by
  intro acc
  induction acc with
  | nil => intro; simp [insertP]
  | cons y ys ih =>
    intro hp
    rcases List.pairwise_cons.1 hp with ⟨hy, hys⟩
    by_cases h : lt x y = true
    · rw [insertP, if_pos h]
      refine List.pairwise_cons.2 ⟨?_, hp⟩
      intro b hb
      rcases List.mem_cons.1 hb with rfl | hm
      · exact hasym _ _ h
      · by_cases hbx : lt b x = true
        · have := htrans b x y hbx h
          rw [hy b hm] at this
          exact absurd this (by simp)
        · rwa [Bool.not_eq_true] at hbx
    · rw [insertP, if_neg h]
      refine List.pairwise_cons.2 ⟨?_, ih hys⟩
      intro b hb
      rcases mem_insertP.1 hb with rfl | hm
      · rwa [Bool.not_eq_true] at h
      · exact hy b hm

theorem sortP_sorted {α : Type} {lt : α → α → Bool}
    (hasym : ∀ a b, lt a b = true → lt b a = false)
    (htrans : ∀ a b c, lt a b = true → lt b c = true → lt a c = true) :
    ∀ (l acc : List α), acc.Pairwise (fun a b => lt b a = false) →
      (List.foldl (fun acc x => insertP lt x acc) acc l).Pairwise
        (fun a b => lt b a = false) := by
  intro l
  induction l with
  | nil => intro acc h; exact h
  | cons x xs ih =>
    intro acc h
    exact ih (insertP lt x acc) (insertP_sorted hasym htrans h)

theorem insertP_filter {α κ : Type} [DecidableEq κ] (k : α → κ) (ltk : κ → κ → Bool)
    (hasym : ∀ a b, ltk a b = true → ltk b a = false) (x : α) (kv : κ) :
    ∀ {acc : List α}, acc.Pairwise (fun a b => ltk (k b) (k a) = false) →
      (insertP (fun a b => ltk (k a) (k b)) x acc).filter (fun a => decide (k a = kv))
        = acc.filter (fun a => decide (k a = kv))
            ++ (if k x = kv then [x] else []) := by
  intro acc
  induction acc with
  | nil =>
    intro
    by_cases h : k x = kv <;> simp [insertP, List.filter_cons, h]
  | cons y ys ih =>
    intro hp
    rcases List.pairwise_cons.1 hp with ⟨hy, hys⟩
    by_cases h : ltk (k x) (k y) = true
    · rw [insertP, if_pos h]
      by_cases hx : k x = kv
      · have hyne : ¬(k y = kv) := by
          intro hyk
          have hxy : k y = k x := hyk.trans hx.symm
          rw [hxy] at h
          have h2 := hasym _ _ h
          rw [h] at h2
          exact absurd h2 (by simp)
        have hfil : ys.filter (fun a => decide (k a = kv)) = [] := by
          rw [List.filter_eq_nil_iff]
          intro b hb
          simp only [decide_eq_true_eq]
          intro hbk
          have hxb : ltk (k b) (k y) = true := by rw [hbk, ← hx]; exact h
          rw [hy b hb] at hxb
          exact absurd hxb (by simp)
        simp [List.filter_cons, hx, hyne, hfil]
      · simp [List.filter_cons, hx]
    · rw [insertP, if_neg h]
      by_cases hyk : k y = kv <;>
        simp [List.filter_cons, hyk, ih hys]

theorem sortP_filter {α κ : Type} [DecidableEq κ] (k : α → κ) (ltk : κ → κ → Bool)
    (hasym : ∀ a b, ltk a b = true → ltk b a = false)
    (htrans : ∀ a b c, ltk a b = true → ltk b c = true → ltk a c = true) (kv : κ) :
    ∀ (l acc : List α), acc.Pairwise (fun a b => ltk (k b) (k a) = false) →
      (List.foldl (fun acc x => insertP (fun a b => ltk (k a) (k b)) x acc) acc l).filter
          (fun a => decide (k a = kv))
        = acc.filter (fun a => decide (k a = kv)) ++ l.filter (fun a => decide (k a = kv)) := by
  intro l
  induction l with
  | nil => intro acc _; simp
  | cons x xs ih =>
    intro acc hacc
    rw [List.foldl_cons]
    have hsorted : (insertP (fun a b => ltk (k a) (k b)) x acc).Pairwise
        (fun a b => ltk (k b) (k a) = false) :=
      @insertP_sorted α (fun a b => ltk (k a) (k b))
        (fun a b hab => hasym (k a) (k b) hab)
        (fun a b c h1 h2 => htrans (k a) (k b) (k c) h1 h2) x acc hacc
    rw [ih _ hsorted, insertP_filter k ltk hasym x kv hacc]
    rw [List.filter_cons]
    by_cases hx : k x = kv <;> simp [hx]

theorem exceptBindOk {ε β γ : Type} (b : β) (f : β → Except ε γ) :
    (Except.ok b >>= f) = f b := rfl

theorem exceptBindError {ε β γ : Type} (e : ε) (f : β → Except ε γ) :
    ((Except.error e : Except ε β) >>= f) = Except.error e := rfl

theorem exceptMapError {ε β γ : Type} (e : ε) (f : β → γ) :
    (f <$> (Except.error e : Except ε β)) = Except.error e := rfl

theorem exceptMapOk {ε β γ : Type} (b : β) (f : β → γ) :
    (f <$> (Except.ok b : Except ε β)) = Except.ok (f b) := rfl

theorem insertE_cons {α : Type} (cmp : α → α → Except Unit Bool) (x y : α) (ys : List α) :
    insertE cmp x (y :: ys)
      = cmp x y >>= fun b =>
          if b then pure (x :: y :: ys) else (insertE cmp x ys).map (y :: ·) := by
  rw [insertE]
  cases hc : cmp x y with
  | error e => rfl
  | ok b =>
    cases b with
    | false =>
      rw [exceptBindOk, exceptBindOk, if_neg (by simp)]
      cases insertE cmp x ys <;> rfl
    | true => rfl

theorem insertE_ok_mem {α : Type} {cmp : α → α → Except Unit Bool} {x : α} :
    ∀ {acc out : List α}, insertE cmp x acc = .ok out → ∀ a, a ∈ out ↔ a = x ∨ a ∈ acc := by
  intro acc
  induction acc with
  | nil =>
    intro out h a
    rw [insertE] at h
    cases h
    simp
  | cons y ys ih =>
    intro out h a
    rw [insertE_cons] at h
    cases hc : cmp x y with
    | error e =>
      rw [hc, exceptBindError] at h
      exact absurd h (by simp)
    | ok b =>
      rw [hc, exceptBindOk] at h
      by_cases hb : b = true
      · rw [if_pos hb] at h
        cases h
        simp
      · rw [Bool.not_eq_true] at hb
        rw [hb, if_neg (by simp)] at h
        cases hr : insertE cmp x ys with
        | error e =>
          rw [hr] at h
          exact absurd h (by simp [Except.map])
        | ok r =>
          rw [hr] at h
          simp only [Except.map] at h
          cases h
          have := ih hr a
          simp only [List.mem_cons, this]
          tauto

theorem insertE_ok_cmp {α : Type} {cmp : α → α → Except Unit Bool} {x y : α} {ys out : List α}
    (h : insertE cmp x (y :: ys) = .ok out) : ∃ b, cmp x y = .ok b := by
  rw [insertE_cons] at h
  cases hc : cmp x y with
  | error e =>
    rw [hc, exceptBindError] at h
    exact absurd h (by simp)
  | ok b => exact ⟨b, rfl⟩

theorem sortE_ok_uniform_aux {α : Type} {cmp : α → α → Except Unit Bool} {t : α → Bool}
    (hct : ∀ x y b, cmp x y = .ok b → t x = t y) :
    ∀ (l acc : List α) (res : List α),
      List.foldlM (fun acc x => insertE cmp x acc) acc l = .ok res →
      (∀ a ∈ acc, ∀ b ∈ acc, t a = t b) →
      ∀ a, (a ∈ l ∨ a ∈ acc) → ∀ b, (b ∈ l ∨ b ∈ acc) → t a = t b := by
  intro l
  induction l with
  | nil =>
    intro acc res _ hacc a ha b hb
    rcases ha with ha | ha
    · cases ha
    · rcases hb with hb | hb
      · cases hb
      · exact hacc a ha b hb
  | cons x xs ih =>
    intro acc res hfold hacc a ha b hb
    rw [List.foldlM_cons] at hfold
    cases hin : insertE cmp x acc with
    | error e =>
      rw [hin, exceptBindError] at hfold
      exact absurd hfold (by simp)
    | ok acc2 =>
      rw [hin, exceptBindOk] at hfold
      have hmem := insertE_ok_mem hin
      have hx_acc : ∀ c ∈ acc, t x = t c := by
        intro c hc
        cases acc with
        | nil => cases hc
        | cons y ys =>
          rcases insertE_ok_cmp hin with ⟨b0, hb0⟩
          have hxy : t x = t y := hct x y b0 hb0
          rcases List.mem_cons.1 hc with rfl | hm
          · exact hxy
          · exact hxy.trans (hacc y (List.mem_cons_self ..) c (List.mem_cons_of_mem _ hm))
      have hacc2 : ∀ a ∈ acc2, ∀ b ∈ acc2, t a = t b := by
        intro a2 ha2 b2 hb2
        rcases (hmem a2).1 ha2 with rfl | ha2m
        · rcases (hmem b2).1 hb2 with rfl | hb2m
          · rfl
          · exact hx_acc b2 hb2m
        · rcases (hmem b2).1 hb2 with rfl | hb2m
          · exact (hx_acc a2 ha2m).symm
          · exact hacc a2 ha2m b2 hb2m
      have key : ∀ c, (c ∈ xs ∨ c ∈ acc2) → ∀ d, (d ∈ xs ∨ d ∈ acc2) → t c = t d :=
        ih acc2 res hfold hacc2
      have lift : ∀ c, (c ∈ x :: xs ∨ c ∈ acc) → (c ∈ xs ∨ c ∈ acc2) := by
        intro c hc
        rcases hc with hc | hc
        · rcases List.mem_cons.1 hc with rfl | hm
          · exact Or.inr ((hmem c).2 (Or.inl rfl))
          · exact Or.inl hm
        · exact Or.inr ((hmem c).2 (Or.inr hc))
      exact key a (lift a ha) b (lift b hb)

theorem sortE_ok_uniform {α : Type} {cmp : α → α → Except Unit Bool} {t : α → Bool}
    (hct : ∀ x y b, cmp x y = .ok b → t x = t y) {l res : List α}
    (h : sortE cmp l = .ok res) : ∀ a ∈ l, ∀ b ∈ l, t a = t b := by
  intro a ha b hb
  exact sortE_ok_uniform_aux hct l [] res h (by simp) a (Or.inl ha) b (Or.inl hb)

/-! ### Claim theorems -/

/-- C2. Sync conflict handling: when the remote answers the create call
with a conflict, upsert disabled yields `Failed` carrying the conflict and
no update call; upsert enabled issues exactly one update call with the same
key/value/field set, the outcome being `Updated` on update success and
`Failed` with the update error otherwise. -/
theorem sync_conflict_behavior (upsert : Bool) (k v : String)
    (kwargs : List (String × JVal)) (rb : RemoteBehavior) (e : PyError)
    (hc : rb.createResult = .error e) (hconf : isConflictErr e = true) :
    (upsert = false →
      syncApply upsert k v kwargs rb = (.failed e, [.create k v kwargs]))
    ∧ (upsert = true →
        (rb.updateResult = .ok () →
          syncApply upsert k v kwargs rb
            = (.updated, [.create k v kwargs, .update k v kwargs]))
        ∧ (∀ ue, rb.updateResult = .error ue →
            syncApply upsert k v kwargs rb
              = (.failed ue, [.create k v kwargs, .update k v kwargs]))) := by
  constructor
  · intro hu
    subst hu
    rw [syncApply, hc]
    simp
  · intro hu
    subst hu
    constructor
    · intro hup
      rw [syncApply, hc]
      simp [hconf, hup]
    · intro ue hup
      rw [syncApply, hc]
      simp [hconf, hup]

theorem sync_conflict_behavior_witness :
    syncApply true "K" "v" [] ⟨.error ⟨some 409, "conflict"⟩, .ok ()⟩
      = (.updated, [.create "K" "v" [], .update "K" "v" []]) :=
  ((sync_conflict_behavior true "K" "v" [] ⟨.error ⟨some 409, "conflict"⟩, .ok ()⟩
    ⟨some 409, "conflict"⟩ rfl rfl).2 rfl).1 rfl

/-- C5 counterexample: with an *empty* CLI environment scope and a record
that omits the field, the code omits `environment_scope` from the payload,
while the claim's rule would include it (the empty string is not the
neutral value `"*"`). -/
theorem merge_rule_counterexample :
    mergeKwargs false false false "" ⟨none, none, none, none, none, none⟩
      ≠ mergeKwargsClaimC5 false false false "" ⟨none, none, none, none, none, none⟩ := by
  simp [mergeKwargs, mergeKwargsClaimC5]

/-- C5 (amended). Field merge rule: the record's explicitly present value
wins; otherwise the CLI default applies; a boolean CLI default of `false`
is omitted, and the CLI scope is omitted when it is `"*"` or the empty
string. -/
theorem merge_rule_amended (cliP cliM cliR : Bool) (cliScope : String) (v : PyVar) :
    mergeKwargs cliP cliM cliR cliScope v
      = mergeKwargsAmendedC5 cliP cliM cliR cliScope v := by
  rcases v with ⟨k, val, p, m, r, sc⟩
  by_cases hs1 : cliScope = "" <;> by_cases hs2 : cliScope = "*" <;>
    cases p <;> cases m <;> cases r <;> cases sc <;>
      cases cliP <;> cases cliM <;> cases cliR <;>
        simp [mergeKwargs, mergeKwargsAmendedC5, hs1, hs2]

theorem processBatch_aux (upsert cliP cliM cliR : Bool) (cliScope : String) :
    ∀ (entries : List (PyVar × RemoteBehavior)) (acc : List BatchOutcome × Nat × Nat),
      List.foldl
        (fun acc e =>
          let r := processEntry upsert cliP cliM cliR cliScope e
          (acc.1 ++ [r.1],
           if isSuccess r.1 then (acc.2.1 + 1, acc.2.2) else (acc.2.1, acc.2.2 + 1)))
        acc entries
      = (acc.1 ++ entries.map (fun e => (processEntry upsert cliP cliM cliR cliScope e).1),
         acc.2.1 + entries.countP (fun e => isSuccess (processEntry upsert cliP cliM cliR cliScope e).1),
         acc.2.2 + entries.countP (fun e => !isSuccess (processEntry upsert cliP cliM cliR cliScope e).1)) := by
  intro entries
  induction entries with
  | nil => intro acc; simp
  | cons x xs ih =>
    intro acc
    rw [List.foldl_cons, ih]
    by_cases h : isSuccess (processEntry upsert cliP cliM cliR cliScope x).1 = true
    · simp [h, List.countP_cons]
      omega
    · rw [Bool.not_eq_true] at h
      simp [h, List.countP_cons]
      omega

/-- C8. Batch isolation and accounting: every entry of a bulk create batch
is processed and lands in exactly one of the success/failure tallies; the
outcome log has one entry per input and `success + failed` equals the batch
size, whatever the individual outcomes are. -/
theorem batch_accounting (upsert cliP cliM cliR : Bool) (cliScope : String)
    (entries : List (PyVar × RemoteBehavior)) :
    (processBatch upsert cliP cliM cliR cliScope entries).1.length = entries.length
    ∧ (processBatch upsert cliP cliM cliR cliScope entries).2.1
        + (processBatch upsert cliP cliM cliR cliScope entries).2.2 = entries.length
    ∧ (processBatch upsert cliP cliM cliR cliScope entries).1
        = entries.map (fun e => (processEntry upsert cliP cliM cliR cliScope e).1)
    ∧ (processBatch upsert cliP cliM cliR cliScope entries).2.1
        = (processBatch upsert cliP cliM cliR cliScope entries).1.countP isSuccess := by
  have h := processBatch_aux upsert cliP cliM cliR cliScope entries ([], 0, 0)
  rw [processBatch] at *
  rw [h]
  refine ⟨by simp, ?_, by simp, ?_⟩
  · simp only [List.nil_append, Nat.zero_add]
    have h1 := List.length_eq_countP_add_countP
      (fun e => isSuccess (processEntry upsert cliP cliM cliR cliScope e).1) entries
    have h2 : entries.countP
          (fun a => decide ¬isSuccess (processEntry upsert cliP cliM cliR cliScope a).1 = true)
        = entries.countP (fun e => !isSuccess (processEntry upsert cliP cliM cliR cliScope e).1) :=
      List.countP_congr (by
        intro x _
        cases hx : isSuccess (processEntry upsert cliP cliM cliR cliScope x).1 <;> simp [hx])
    omega
  · simp [List.countP_map]
    rfl

/-- C10 (implicit). The single-record create path requires both a
non-empty key and a non-empty value: an absent or empty value (or key)
reports a usage error and issues no remote call at all. -/
theorem single_create_requires (key value : Option String) (cliP cliM cliR : Bool)
    (cliScope : String) (upsert : Bool) (rb : RemoteBehavior)
    (h : key.getD "" = "" ∨ value.getD "" = "") :
    singleCreate key value cliP cliM cliR cliScope upsert rb = (.usageError, []) := by
  rw [singleCreate]
  rcases h with h | h <;> simp [h]

theorem single_create_requires_witness :
    singleCreate (some "K") (some "") false false false "*" false ⟨.ok (), .ok ()⟩
      = (.usageError, []) :=
  single_create_requires (some "K") (some "") false false false "*" false
    ⟨.ok (), .ok ()⟩ (Or.inr rfl)

/-- C4. Key Validator: validation succeeds exactly on non-empty strings
over `[A-Za-z0-9_]` (which in particular excludes every whitespace
character), and the invalid-character error enumerates precisely the
distinct offending characters in sorted order. The validator is a pure
function of the key. -/
theorem validate_key_correct (key : String) :
    ((validate_variable_key key).isOk = true
      ↔ key.data ≠ [] ∧ ∀ c ∈ key.data, isKeyChar c = true)
    ∧ (∀ cs, validate_variable_key key = .error (.invalidChars key cs) →
        cs.Pairwise (· < ·)
        ∧ ∀ c : Char, c ∈ cs ↔ c ∈ key.data ∧ isKeyChar c = false) := by
  constructor
  · constructor
    · intro h
      rw [validate_variable_key] at h
      split_ifs at h with h1 h2 h3 h4
      · exact absurd h (by simp [Except.isOk, Except.toBool])
      · exact absurd h (by simp [Except.isOk, Except.toBool])
      · refine ⟨?_, ?_⟩
        · intro hnil
          exact h1 (by simp [hnil])
        · intro c hc
          exact List.all_eq_true.1 h3 c hc
      · exact absurd h (by simp [Except.isOk, Except.toBool])
      · exact absurd h (by simp [Except.isOk, Except.toBool])
    · rintro ⟨hne, hall⟩
      have hnospace : ∀ c ∈ key.data, isPySpace c = false :=
        fun c hc => keyChar_not_space (hall c hc)
      rw [validate_variable_key]
      rw [if_neg, if_neg, if_pos]
      · rfl
      · exact List.all_eq_true.2 hall
      · rw [Bool.not_eq_true, List.any_eq_false]
        intro c hc
        simp [hnospace c hc]
      · simp only [Bool.or_eq_true, decide_eq_true_eq]
        push_neg
        refine ⟨hne, ?_⟩
        rw [pyStrip_all_nonspace hnospace]
        exact hne
  · intro cs h
    rw [validate_variable_key] at h
    split_ifs at h with h1 h2 h3 h4
    · cases h
    · cases h
    · cases h
      refine ⟨pairwise_dedupSort, ?_⟩
      intro c
      rw [mem_dedupSort, List.mem_filter]
      simp [Bool.not_eq_true']
    · cases h

theorem validate_key_correct_witness :
    ((['!', '@'] : List Char).Pairwise (· < ·)
      ∧ ∀ c : Char, c ∈ (['!', '@'] : List Char) ↔ c ∈ "a!@b".data ∧ isKeyChar c = false) :=
  (validate_key_correct "a!@b").2 ['!', '@'] rfl

/-- C3 counterexample: a remote whose every page reports the numeric
total-pages indicator `0` still receives one page request (the loop always
issues the page-1 request before checking the indicator), so the request
log is not `1..T = []` as the claim demands for `T = 0`. -/
theorem pagination_counterexample :
    pageTotal ((fun p => (⟨[p], some "0"⟩ : PageResponse Nat)) 1) = 0
    ∧ (list_variables (fun p => (⟨[p], some "0"⟩ : PageResponse Nat)) 5).2 = [(1, 100)]
    ∧ ([(1, 100)] : List (Nat × Nat))
        ≠ (List.range' 1 0).map (fun p => (p, 100)) := by
  refine ⟨rfl, rfl, by decide⟩

theorem listVarsLoop_const {α : Type} (remote : Nat → PageResponse α) (T : Int)
    (hT : ∀ p, pageTotal (remote p) = T) :
    ∀ (k page : Nat), 1 ≤ page → (page : Int) + k = max T 1 →
      ∀ fuel, k + 1 ≤ fuel →
        listVarsLoop remote fuel page
          = (((List.range' page (k + 1)).map (fun p => (remote p).entries)).flatten,
             (List.range' page (k + 1)).map (fun p => (p, 100))) := by
  intro k
  induction k with
  | zero =>
    intro page hp1 hpk fuel hfuel
    cases fuel with
    | zero => omega
    | succ f =>
      rw [listVarsLoop]
      rw [if_pos]
      · simp [List.range'_succ]
      · rw [hT page]
        omega
  | succ k ih =>
    intro page hp1 hpk fuel hfuel
    cases fuel with
    | zero => omega
    | succ f =>
      rw [listVarsLoop]
      rw [if_neg]
      · rw [ih (page + 1) (by omega) (by push_cast; push_cast at hpk; omega) f (by omega)]
        simp [List.range'_succ]
      · rw [hT page]
        push_cast at hpk
        omega

/-- C3 (amended). Pagination: when every page response carries the same
numeric total-pages indicator `T`, `list_variables` issues exactly
`max T 1` page requests, in order `1, 2, ..., max T 1`, each with
`per_page = 100`, and returns the concatenation of those pages' entries in
request order (for `T = 0`, one request is still made); when page 1's
indicator is missing or non-numeric, exactly one request is issued and
only page 1's entries are returned. -/
theorem pagination_amended {α : Type} :
    (∀ (remote : Nat → PageResponse α) (T : Int), (∀ p, pageTotal (remote p) = T) →
      ∀ fuel, (max T 1).toNat ≤ fuel →
        list_variables remote fuel
          = (((List.range' 1 (max T 1).toNat).map (fun p => (remote p).entries)).flatten,
             (List.range' 1 (max T 1).toNat).map (fun p => (p, 100))))
    ∧ (∀ remote : Nat → PageResponse α,
        (∀ s, (remote 1).totalPagesHeader = some s → pyInt s = none) →
        ∀ fuel, 1 ≤ fuel →
          list_variables remote fuel = ((remote 1).entries, [(1, 100)])) := by
  constructor
  · intro remote T hT fuel hfuel
    have hN : 1 ≤ (max T 1).toNat := by omega
    have hk : ((1 : Nat) : Int) + ((max T 1).toNat - 1 : Nat) = max T 1 := by
      push_cast
      omega
    rw [list_variables, listVarsLoop_const remote T hT ((max T 1).toNat - 1) 1 le_rfl hk fuel (by omega)]
    have : (max T 1).toNat - 1 + 1 = (max T 1).toNat := by omega
    rw [this]
  · intro remote hmiss fuel hfuel
    have h1 : pageTotal (remote 1) = 1 := by
      rw [pageTotal]
      cases hh : (remote 1).totalPagesHeader with
      | none => rfl
      | some s =>
        show (pyInt s).getD 1 = 1
        rw [hmiss s hh]
        rfl
    cases fuel with
    | zero => omega
    | succ f =>
      rw [list_variables, listVarsLoop, if_pos (by rw [h1]; norm_num)]

theorem pagination_amended_witness :
    list_variables (fun p => (⟨[p], some "3"⟩ : PageResponse Nat)) 3
      = ([1, 2, 3], [(1, 100), (2, 100), (3, 100)]) := by
  have h := (@pagination_amended Nat).1 (fun p => ⟨[p], some "3"⟩) 3 (fun p => rfl) 3 (by decide)
  rw [h]
  rfl

theorem stripItems_eq {a b : PyVar} (h : exceptValueEq a b) :
    stripValueItems (varToItems a) = stripValueItems (varToItems b) := by
  rcases a with ⟨ak, av, ap, am, ar, asc⟩
  rcases b with ⟨bk, bv, bp, bm, br, bsc⟩
  rcases h with ⟨hk, hp, hm, hr, hsc⟩
  simp only at hk hp hm hr hsc
  subst hk hp hm hr hsc
  cases av <;> cases bv <;>
    simp [varToItems, stripValueItems, List.filter_append, List.filter_cons]

theorem redaction_keys_eq {vars1 vars2 : List PyVar}
    (h : List.Forall₂ exceptValueEq vars1 vars2) :
    vars1.map (fun v => v.key.getD "") = vars2.map (fun v => v.key.getD "") := by
  induction h with
  | nil => rfl
  | cons hab _ ih =>
    simp only [List.map_cons, ih]
    rw [hab.1]

theorem redaction_strip_eq {vars1 vars2 : List PyVar}
    (h : List.Forall₂ exceptValueEq vars1 vars2) :
    vars1.map (fun v => stripValueItems (varToItems v))
      = vars2.map (fun v => stripValueItems (varToItems v)) := by
  induction h with
  | nil => rfl
  | cons hab _ ih => simp only [List.map_cons, ih, stripItems_eq hab]

theorem redaction_env_eq {vars1 vars2 : List PyVar}
    (h : List.Forall₂ exceptValueEq vars1 vars2) :
    vars1.map (envLine false) = vars2.map (envLine false) := by
  induction h with
  | nil => rfl
  | cons hab _ ih =>
    simp only [List.map_cons, ih, envLine, hab.1, Bool.false_eq_true, if_false]

theorem redaction_simple_eq {vars1 vars2 : List PyVar}
    (h : List.Forall₂ exceptValueEq vars1 vars2) :
    ∀ d, List.foldl (fun d v => assocSet d (v.key.getD "") "") d vars1
      = List.foldl (fun d v => assocSet d (v.key.getD "") "") d vars2 := by
  induction h with
  | nil => intro d; rfl
  | cons hab _ ih =>
    intro d
    simp only [List.foldl_cons]
    rw [hab.1]
    exact ih _

/-- C1. Redaction as noninterference: with `includeValues = false`, the
bytes of every export format (YAML-simple, YAML-structured, JSON, .env)
are a function of the records' key and flag fields only — two record
sequences that differ only in their `value` fields serialize to identical
output (values are stripped from the structured/JSON documents and written
as an empty right-hand side in the simple-YAML dict and the .env lines,
while key and flag fields are always carried through unchanged). -/
theorem redaction_noninterference (fmt : DlFormat) (sortF : SortField)
    (vars1 vars2 : List PyVar) (h : List.Forall₂ exceptValueEq vars1 vars2) :
    downloadSerialize fmt false sortF vars1 = downloadSerialize fmt false sortF vars2 := by
  have hlen : vars1.length = vars2.length := h.length_eq
  have hkeys := redaction_keys_eq h
  have hstrip := redaction_strip_eq h
  cases fmt with
  | env =>
    show downloadEnv false sortF vars1 = downloadEnv false sortF vars2
    rw [downloadEnv, downloadEnv, hlen, redaction_env_eq h]
  | json =>
    show downloadJson false sortF vars1 = downloadJson false sortF vars2
    have hX : (vars1.map varToItems).map stripValueItems
        = (vars2.map varToItems).map stripValueItems := by
      rw [List.map_map, List.map_map]
      exact hstrip
    rw [downloadJson, downloadJson, downloadJsonDoc, downloadJsonDoc]
    simp only [Bool.false_eq_true, if_false]
    rw [hX, hlen]
  | yaml style =>
    show downloadSerialize (.yaml style) false sortF vars1 = _
    rw [downloadSerialize, downloadSerialize]
    by_cases hs : style = none ∨ style = some .simple
    · have hcond : (style = none || style = some YamlStyle.simple) = true := by
        rcases hs with hs | hs <;> simp [hs]
      simp only [hcond, if_true]
      rw [downloadYamlSimple, downloadYamlSimple, hlen]
      have hsd : simpleData false vars1 = simpleData false vars2 := by
        rw [simpleData, simpleData]
        simp only [Bool.false_eq_true, if_false]
        exact redaction_simple_eq h []
      rw [hsd]
    · have hcond : (style = none || style = some YamlStyle.simple) = false := by
        push_neg at hs
        rcases hs with ⟨h1, h2⟩
        simp [h1, h2]
      simp only [hcond, if_false]
      have hX : (vars1.map varToItems).map stripValueItems
          = (vars2.map varToItems).map stripValueItems := by
        rw [List.map_map, List.map_map]
        exact hstrip
      rw [downloadYamlStructured, downloadYamlStructured]
      simp only [Bool.false_eq_true, if_false]
      rw [hX, hlen]

theorem redaction_noninterference_witness :
    downloadSerialize .env false .key
        [⟨some "K", some "secret", some true, none, none, none⟩]
      = downloadSerialize .env false .key
        [⟨some "K", some "other", some true, none, none, none⟩] :=
  redaction_noninterference .env .key _ _
    (List.Forall₂.cons ⟨rfl, rfl, rfl, rfl, rfl⟩ List.Forall₂.nil)

/-! ### Lemmas for the .env round trip -/

theorem digitChar_isDigit {k : Nat} (h : k < 10) : (Nat.digitChar k).isDigit = true := by
  interval_cases k <;> decide

theorem natReprCharsAux_digits :
    ∀ (fuel n : Nat), ∀ c ∈ natReprCharsAux fuel n, c.isDigit = true := by
  intro fuel
  induction fuel with
  | zero => intro n c hc; cases hc
  | succ f ih =>
    intro n c hc
    rw [natReprCharsAux] at hc
    by_cases h : n < 10
    · rw [if_pos h] at hc
      rcases List.mem_cons.1 hc with rfl | hv
      · exact digitChar_isDigit h
      · cases hv
    · rw [if_neg h] at hc
      rcases List.mem_append.1 hc with hm | hm
      · exact ih (n / 10) c hm
      · rcases List.mem_cons.1 hm with rfl | hv
        · exact digitChar_isDigit (Nat.mod_lt n (by omega))
        · cases hv

theorem natReprChars_digits : ∀ (n : Nat), ∀ c ∈ natReprChars n, c.isDigit = true := by
  intro n
  exact natReprCharsAux_digits (n + 1) n

theorem isDigit_ne_of_code {c : Char} (h : c.isDigit = true) (d : Char)
    (hd : d.toNat < 48 ∨ 57 < d.toNat) : c ≠ d := by
  intro he
  subst he
  rw [Char.isDigit] at h
  simp only [Bool.and_eq_true, decide_eq_true_eq] at h
  rcases h with ⟨h1, h2⟩
  have : 48 ≤ c.toNat ∧ c.toNat ≤ 57 := by
    constructor
    · exact h1
    · exact h2
  omega

theorem keyChar_ne {c : Char} (h : isKeyChar c = true) (d : Char)
    (hd : isKeyCharN d.toNat = false) : c ≠ d := by
  intro he
  exact keyChar_ne_of_code h d.toNat hd (by rw [he])

theorem stripRight_length_le : ∀ l : List Char, (stripRight l).length ≤ l.length := by
  intro l
  induction l with
  | nil => simp [stripRight]
  | cons c cs ih =>
    rw [stripRight]
    cases hr : stripRight cs with
    | nil =>
      by_cases h : isPySpace c = true <;> simp [h]
    | cons r rs =>
      rw [hr] at ih
      simp only [List.length_cons] at ih ⊢
      omega

theorem pyStrip_fix_head {l : List Char} (h : pyStrip l = l) :
    ∀ c, l.head? = some c → isPySpace c = false := by
  intro c hc
  rcases List.head?_eq_some_iff.1 hc with ⟨ys, rfl⟩
  by_contra hsp
  rw [Bool.not_eq_false] at hsp
  have h1 : (c :: ys).dropWhile isPySpace = ys.dropWhile isPySpace := by
    simp [List.dropWhile_cons, hsp]
  have h2 : (pyStrip (c :: ys)).length ≤ ys.length := by
    rw [pyStrip, h1]
    calc (stripRight (ys.dropWhile isPySpace)).length
        ≤ (ys.dropWhile isPySpace).length := stripRight_length_le _
      _ ≤ ys.length := List.Sublist.length_le (List.dropWhile_sublist _)
  rw [h] at h2
  simp at h2

theorem stripRight_fix_last : ∀ (l : List Char), stripRight l = l →
    ∀ c, l.getLast? = some c → isPySpace c = false := by
  intro l
  induction l with
  | nil => intro _ c hc; cases hc
  | cons d ds ih =>
    intro h c hc
    cases hds : ds with
    | nil =>
      subst hds
      cases hc
      rw [stripRight] at h
      by_cases hsp : isPySpace d = true
      · rw [show stripRight [] = [] from rfl] at h
        rw [if_pos hsp] at h
        cases h
      · rwa [Bool.not_eq_true] at hsp
    | cons e es =>
      rw [stripRight] at h
      cases hr : stripRight ds with
      | nil =>
        rw [hr] at h
        by_cases hsp : isPySpace d = true
        · rw [if_pos hsp] at h
          cases h
        · rw [if_neg hsp] at h
          rw [hds] at h
          cases h
      | cons r rs =>
        rw [hr] at h
        have hdse : stripRight ds = ds := by
          rw [hr]
          have := List.cons.inj h
          exact this.2
        apply ih hdse c
        rw [hds] at hc ⊢
        rwa [List.getLast?_cons_cons] at hc

theorem pyStrip_fix_last {l : List Char} (h : pyStrip l = l) :
    ∀ c, l.getLast? = some c → isPySpace c = false := by
  intro c hc
  cases l with
  | nil => cases hc
  | cons d ds =>
    have hhd : isPySpace d = false := pyStrip_fix_head h d rfl
    have h1 : (d :: ds).dropWhile isPySpace = d :: ds := by
      simp [List.dropWhile_cons, hhd]
    rw [pyStrip, h1] at h
    exact stripRight_fix_last _ h c hc

theorem parseEnvLine_nil : parseEnvLine [] = none := rfl

theorem parseEnvLine_comment {l : List Char} (h : l.head? = some '#') :
    parseEnvLine l = none := by
  rcases pyStrip_head h (by decide) with ⟨hne, hhd⟩
  rw [parseEnvLine]
  rw [if_neg hne, if_pos hhd]

theorem parseEnvLine_data {k v : List Char} (hk : k ≠ [])
    (hkc : ∀ c ∈ k, isKeyChar c = true) (hvs : pyStrip v = v) :
    parseEnvLine (k ++ '=' :: v) = some (⟨k⟩, ⟨v⟩) := by
  rcases k with _ | ⟨k0, krest⟩
  · exact absurd rfl hk
  have hk0 : isKeyChar k0 = true := hkc k0 (List.mem_cons_self ..)
  have hhead : ((k0 :: krest) ++ '=' :: v).head? = some k0 := rfl
  have hstrip : pyStrip ((k0 :: krest) ++ '=' :: v) = (k0 :: krest) ++ '=' :: v := by
    apply pyStrip_eq_self
    · intro c hc
      rw [hhead] at hc
      cases hc
      exact keyChar_not_space hk0
    · intro c hc
      cases hv : v with
      | nil =>
        subst hv
        rw [List.getLast?_concat] at hc
        cases hc
        decide
      | cons v0 vrest =>
        subst hv
        rw [List.getLast?_append_of_ne_nil (k0 :: krest)
            (show ('=' :: v0 :: vrest) ≠ [] by simp),
          List.getLast?_cons_cons] at hc
        exact pyStrip_fix_last hvs c hc
  rw [parseEnvLine, hstrip]
  rw [if_neg (by simp)]
  rw [if_neg]
  · rw [if_pos]
    · have hsplit : splitFirstEq ((k0 :: krest) ++ '=' :: v) = (k0 :: krest, v) :=
        splitFirstEq_append v (by
          intro hm
          exact keyChar_ne (hkc '=' hm) '=' (by decide) rfl)
      rw [hsplit]
      have h1 : pyStrip (k0 :: krest) = k0 :: krest :=
        pyStrip_all_nonspace (fun c hc => keyChar_not_space (hkc c hc))
      simp [h1, hvs]
    · apply pyContains_of_mem
      exact List.mem_append.2 (Or.inr (List.mem_cons_self ..))
  · rw [hhead]
    intro hcon
    cases hcon
    exact keyChar_ne hk0 '#' (by decide) rfl

theorem parseEnv_varlines (vars : List PyVar) (h : ∀ v ∈ vars, envCleanVar v) :
    (splitNl ((vars.map (envLine true)).flatten)).filterMap parseEnvLine
      = vars.map (fun v => (v.key.getD "", v.value.getD "")) := by
  induction vars with
  | nil => rfl
  | cons v vs ih =>
    obtain ⟨⟨k, hk, hkne, hkc⟩, hvnl, hvstrip⟩ := h v (List.mem_cons_self ..)
    have hrest := ih (fun w hw => h w (List.mem_cons_of_mem _ hw))
    have hshape : envLine true v ++ (vs.map (envLine true)).flatten
        = (k.data ++ '=' :: (v.value.getD "").data)
            ++ '\n' :: (vs.map (envLine true)).flatten := by
      simp [envLine, hk, List.append_assoc]
    have hnl : '\n' ∉ k.data ++ '=' :: (v.value.getD "").data := by
      intro hm
      rcases List.mem_append.1 hm with hm | hm
      · exact keyChar_ne (hkc _ hm) '\n' (by decide) rfl
      · rcases List.mem_cons.1 hm with he | hm
        · cases he
        · exact (hvnl _ hm).1 rfl
    rw [List.map_cons, List.flatten_cons, hshape, splitNl_line _ hnl,
      List.filterMap_cons, parseEnvLine_data hkne hkc hvstrip, hrest]
    rw [List.map_cons]
    have hk1 : v.key.getD "" = k := by rw [hk]; rfl
    have hk2 : String.mk k.data = k := by cases k; rfl
    have hk3 : String.mk (v.value.getD "").data = v.value.getD "" := by
      cases hvv : v.value.getD "" ; rfl
    rw [hk1, hk2, hk3]

theorem env_content_no_cr (sortF : SortField) (vars : List PyVar)
    (h : ∀ v ∈ vars, envCleanVar v) : '\r' ∉ downloadEnv true sortF vars := by
  intro hm
  rw [downloadEnv] at hm
  rcases List.mem_append.1 hm with hm | hm
  · rw [envHeader] at hm
    rcases List.mem_append.1 hm with hm | hm
    · rcases List.mem_append.1 hm with hm | hm
      · rcases List.mem_append.1 hm with hm | hm
        · exact absurd hm (by decide)
        · rcases List.mem_cons.1 hm with he | hm
          · cases he
          · rcases List.mem_append.1 hm with hm | hm
            · exact absurd hm (by decide)
            · exact isDigit_ne_of_code (natReprChars_digits _ _ hm) '\r' (by decide) rfl
      · rcases List.mem_cons.1 hm with he | hm
        · cases he
        · rcases List.mem_append.1 hm with hm | hm
          · exact absurd hm (by decide)
          · cases sortF <;> exact absurd hm (by decide)
    · rcases List.mem_cons.1 hm with he | hm
      · cases he
      · rcases List.mem_cons.1 hm with he | hm
        · cases he
        · cases hm
  · rcases List.mem_flatten.1 hm with ⟨l, hl, hcl⟩
    rcases List.mem_map.1 hl with ⟨v, hv, rfl⟩
    obtain ⟨⟨k, hk, hkne, hkc⟩, hvnl, hvstrip⟩ := h v hv
    have hd : '\r' ∈ k.data ∨ '\r' = '=' ∨ '\r' ∈ (v.value.getD "").data ∨ '\r' = '\n' := by
      simpa [envLine, hk, List.mem_append, List.mem_cons, or_assoc] using hcl
    rcases hd with hm2 | hm2 | hm2 | hm2
    · exact keyChar_ne (hkc _ hm2) '\r' (by decide) rfl
    · cases hm2
    · exact (hvnl _ hm2).2 rfl
    · cases hm2

/-- C7 counterexample: a record whose value contains a newline does not
survive the .env round trip — the value `"a\nb"` is written across two
physical lines, the second of which (no `=`) is silently dropped on
re-parse, leaving the pair `("K", "a")`. -/
theorem env_roundtrip_counterexample :
    parseEnvFile (downloadEnv true .key
        [⟨some "K", some "a\nb", none, none, none, none⟩])
      = [("K", "a")]
    ∧ ([(("K" : String), ("a" : String))]
        ≠ [(("K" : String), ("a\nb" : String))]) := by
  constructor
  · rfl
  · decide

/-- C7 (amended). Line-oriented (.env) round trip: for records whose keys
are valid variable keys and whose values are single-line strings equal to
their own whitespace-strip, serializing with `includeValues = true` and
re-parsing yields exactly the original (key, value) pairs in order (flag
fields are lost by design); multiline or whitespace-padded values are not
restored faithfully. -/
theorem env_roundtrip_amended (sortF : SortField) (vars : List PyVar)
    (h : ∀ v ∈ vars, envCleanVar v) :
    parseEnvFile (downloadEnv true sortF vars)
      = vars.map (fun v => (v.key.getD "", v.value.getD "")) := by
  rw [parseEnvFile, normNl_eq_self (env_content_no_cr sortF vars h)]
  have hshape : downloadEnv true sortF vars
      = "# GitLab CI/CD Variables".data
          ++ '\n' :: (("# Total: ".data ++ natReprChars vars.length)
          ++ '\n' :: (("# Sorted by: ".data ++ (sortFieldName sortF).data)
          ++ '\n' :: ('\n' :: (vars.map (envLine true)).flatten))) := by
    rw [downloadEnv, envHeader]
    simp [List.append_assoc]
  have h1 : '\n' ∉ "# GitLab CI/CD Variables".data := by decide
  have h2 : '\n' ∉ "# Total: ".data ++ natReprChars vars.length := by
    intro hm
    rcases List.mem_append.1 hm with hm | hm
    · exact absurd hm (by decide)
    · exact isDigit_ne_of_code (natReprChars_digits _ _ hm) '\n' (by decide) rfl
  have h3 : '\n' ∉ "# Sorted by: ".data ++ (sortFieldName sortF).data := by
    intro hm
    rcases List.mem_append.1 hm with hm | hm
    · exact absurd hm (by decide)
    · cases sortF <;> exact absurd hm (by decide)
  rw [hshape, splitNl_line _ h1, splitNl_line _ h2, splitNl_line _ h3, splitNl_cons_nl]
  rw [List.filterMap_cons, List.filterMap_cons, List.filterMap_cons, List.filterMap_cons]
  rw [parseEnvLine_comment (l := "# GitLab CI/CD Variables".data) rfl]
  rw [parseEnvLine_comment (l := "# Total: ".data ++ natReprChars vars.length) rfl]
  rw [parseEnvLine_comment (l := "# Sorted by: ".data ++ (sortFieldName sortF).data) rfl]
  rw [parseEnvLine_nil]
  exact parseEnv_varlines vars h

theorem env_roundtrip_amended_witness :
    parseEnvFile (downloadEnv true .key
        [⟨some "K", some "v1", none, none, none, none⟩,
         ⟨some "LOG_LEVEL", none, none, none, none, none⟩])
      = [("K", "v1"), ("LOG_LEVEL", "")] := by
  have h := env_roundtrip_amended .key
    [⟨some "K", some "v1", none, none, none, none⟩,
     ⟨some "LOG_LEVEL", none, none, none, none, none⟩]
    (by
      intro v hv
      rcases List.mem_cons.1 hv with rfl | hv
      · exact ⟨⟨"K", rfl, by decide, by decide⟩, by decide, by decide⟩
      · rcases List.mem_cons.1 hv with rfl | hv
        · exact ⟨⟨"LOG_LEVEL", rfl, by decide, by decide⟩, by decide, by decide⟩
        · cases hv)
  rw [h]
  rfl

theorem prettifyValue_id {s : String}
    (h : pyContains ['\\', 'n'] s.data = false) : prettifyValue s = s := by
  rw [prettifyValue, if_neg (by simp [h])]

theorem prettifyEntry_id {v : PyVar}
    (h : ∀ s, v.value = some s → pyContains ['\\', 'n'] s.data = false) :
    prettifyEntry (varToItems v) = varToItems v := by
  have hpv : ∀ s, v.value = some s → prettifyValue s = s :=
    fun s hs => prettifyValue_id (h s hs)
  rcases v with ⟨k, val, p, m, r, sc⟩
  cases val with
  | none =>
    cases k <;> cases p <;> cases m <;> cases r <;> cases sc <;>
      simp [prettifyEntry, varToItems]
  | some s =>
    have hs : prettifyValue s = s := hpv s rfl
    cases k <;> cases p <;> cases m <;> cases r <;> cases sc <;>
      by_cases hse : s = "" <;>
        simp [prettifyEntry, varToItems, hs, hse]

theorem entryToVar_varToItems (v : PyVar) : entryToVar (JVal.obj (varToItems v)) = v := by
  rcases v with ⟨k, val, p, m, r, sc⟩
  cases k <;> cases val <;> cases p <;> cases m <;> cases r <;> cases sc <;>
    simp [entryToVar, varToItems, jGetStr, jGetBool, jGet]

/-- C6 counterexample: serializing a record whose value is the four
characters `[`, `\`, `n`, `]` through the JSON export triggers the
embedded-JSON pretty-printing heuristic — the value reparses (after
backslash-n conversion) as the empty array and is re-encoded as `[]` — so
re-parsing the document yields a record whose value differs from the
input. -/
theorem json_roundtrip_counterexample :
    (parseVarsDoc (downloadJsonDoc true .key
        [⟨some "K", some "[\\n]", none, none, none, none⟩])).map
      (fun l => l.map entryToVar)
      = .ok [⟨some "K", some "[]", none, none, none, none⟩]
    ∧ ((⟨some "K", some "[]", none, none, none, none⟩ : PyVar)
        ≠ ⟨some "K", some "[\\n]", none, none, none, none⟩) := by
  constructor
  · rfl
  · decide

/-- C6 (amended). JSON round trip: serializing to the structured JSON
document with `includeValues = true` and re-parsing its `variables` list
yields records equal on all six fields to the input, provided no record's
value contains the two-character sequence backslash-n; a value containing
that sequence may instead be re-encoded by the embedded-JSON
pretty-printing heuristic (as witnessed by the counterexample). -/
theorem json_roundtrip_amended (sortF : SortField) (vars : List PyVar)
    (h : ∀ v ∈ vars, ∀ s, v.value = some s → pyContains ['\\', 'n'] s.data = false) :
    parseVarsDoc (downloadJsonDoc true sortF vars)
      = .ok (vars.map (fun v => JVal.obj (varToItems v)))
    ∧ (vars.map (fun v => JVal.obj (varToItems v))).map entryToVar = vars := by
  have hpretty : (vars.map varToItems).map prettifyEntry = vars.map varToItems := by
    rw [List.map_map]
    apply List.map_congr_left
    intro v hv
    exact prettifyEntry_id (h v hv)
  constructor
  · rw [downloadJsonDoc]
    simp only [if_true]
    rw [hpretty, parseVarsDoc]
    have : jGet [("variables", JVal.arr ((vars.map varToItems).map JVal.obj)),
        ("total", JVal.num vars.length),
        ("sorted_by", JVal.str (sortFieldName sortF))] "variables"
        = some (JVal.arr ((vars.map varToItems).map JVal.obj)) := by
      rw [jGet]
      simp
    rw [this, List.map_map]
    rfl
  · rw [List.map_map]
    have hcong : ∀ v ∈ vars, (entryToVar ∘ fun v => JVal.obj (varToItems v)) v = id v :=
      fun v _ => entryToVar_varToItems v
    rw [List.map_congr_left hcong, List.map_id]

theorem json_roundtrip_amended_witness :
    parseVarsDoc (downloadJsonDoc true .key
        [⟨some "API_KEY", some "secret", some true, none, none, none⟩])
      = .ok ([(⟨some "API_KEY", some "secret", some true, none, none, none⟩ : PyVar)].map
          (fun v => JVal.obj (varToItems v)))
    ∧ ([(⟨some "API_KEY", some "secret", some true, none, none, none⟩ : PyVar)].map
          (fun v => JVal.obj (varToItems v))).map entryToVar
        = [⟨some "API_KEY", some "secret", some true, none, none, none⟩] :=
  json_roundtrip_amended .key _ (by
    intro v hv s hs
    rcases List.mem_cons.1 hv with rfl | hv
    · cases hs
      decide
    · cases hv)

/-! ### Lemmas for the filter/sort pipeline claim -/

theorem pyValLt_ok_type {a b : PyVal} {r : Bool} (h : pyValLt a b = .ok r) :
    isStrVal a = isStrVal b := by
  cases a <;> cases b <;> first | rfl | (exfalso; cases h)

theorem exceptMap_ok_inv {ε β γ : Type} {m : Except ε β} {g : β → γ} {out : γ}
    (h : m.map g = .ok out) : ∃ o, m = .ok o ∧ out = g o := by
  cases m with
  | error e => cases h
  | ok o =>
    refine ⟨o, rfl, ?_⟩
    cases h
    rfl

theorem strVal_rep {x : PyVal} (h : isStrVal x = true) :
    x = PyVal.str ⟨(strValOf x).data⟩ := by
  cases x with
  | str s => cases s; rfl
  | bool b => cases h

theorem boolVal_rep {x : PyVal} (h : isStrVal x = false) :
    x = PyVal.bool (boolValOf x) := by
  cases x with
  | str s => cases h
  | bool b => rfl

theorem pyValLt_str (a b : String) :
    pyValLt (.str a) (.str b) = .ok (charListLt a.data b.data) := rfl

theorem pyValLt_bool (a b : Bool) : pyValLt (.bool a) (.bool b) = .ok (!a && b) := rfl

theorem boolLt_asymm : ∀ a b : Bool, (!a && b) = true → (!b && a) = false := by decide

theorem boolLt_trans :
    ∀ a b c : Bool, (!a && b) = true → (!b && c) = true → (!a && c) = true := by decide

/-- The stable-sort package for the modelled `list.sort`, for a collection
whose sort keys all live in one ordered key type `κ` embedded in `PyVal`
by `kval`. Gives success, permutation, sortedness (inverted for
`reverse`), and full tie stability. -/
theorem pipeline_generic {κ : Type} [DecidableEq κ] (f : SortField) (rev : Bool)
    (k : PyVar → κ) (ltk : κ → κ → Bool) (kval : κ → PyVal)
    (hasym : ∀ a b, ltk a b = true → ltk b a = false)
    (htrans : ∀ a b c, ltk a b = true → ltk b c = true → ltk a c = true)
    (hinj : ∀ a b, kval a = kval b → a = b)
    (hcmp : ∀ a b, pyValLt (kval a) (kval b) = .ok (ltk a b))
    (l : List PyVar) (hrep : ∀ v ∈ l, pyGetSort f v = kval (k v)) :
    ∃ out, pySortList (sortCmp f) rev l = .ok out
      ∧ List.Perm out l
      ∧ (rev = false →
          out.Pairwise (fun a b => pyValLt (pyGetSort f b) (pyGetSort f a) ≠ .ok true))
      ∧ (rev = true →
          out.Pairwise (fun a b => pyValLt (pyGetSort f a) (pyGetSort f b) ≠ .ok true))
      ∧ ∀ kv : PyVal, out.filter (fun v => decide (pyGetSort f v = kv))
          = l.filter (fun v => decide (pyGetSort f v = kv)) := by
  have hcmp2 : ∀ x y : PyVar, (x ∈ l) → (y ∈ l) →
      sortCmp f x y = .ok (ltk (k x) (k y)) := by
    intro x y hx hy
    rw [sortCmp, hrep x hx, hrep y hy, hcmp]
  -- work on the list actually sorted: `l` itself, or its reverse
  have main : ∀ (m : List PyVar), (∀ v ∈ m, v ∈ l) →
      sortE (sortCmp f) m
        = .ok (sortP (fun a b => ltk (k a) (k b)) m)
      ∧ List.Perm (sortP (fun a b => ltk (k a) (k b)) m) m
      ∧ (sortP (fun a b => ltk (k a) (k b)) m).Pairwise
          (fun a b => ltk (k b) (k a) = false)
      ∧ ∀ kv : κ, (sortP (fun a b => ltk (k a) (k b)) m).filter
            (fun v => decide (k v = kv))
          = m.filter (fun v => decide (k v = kv)) := by
    intro m hm
    refine ⟨?_, sortP_perm m, ?_, ?_⟩
    · exact @sortE_bridge PyVar (sortCmp f) (fun a b => ltk (k a) (k b)) (· ∈ l)
        hcmp2 m hm
    · exact sortP_sorted (fun a b h => hasym (k a) (k b) h)
        (fun a b c h1 h2 => htrans (k a) (k b) (k c) h1 h2) m [] (by simp)
    · intro kv
      exact sortP_filter k ltk hasym htrans kv m [] (by simp)
  -- translate a κ-sorted pairwise fact into the PyVal comparator form
  have hpairwise : ∀ (out : List PyVar), (∀ v ∈ out, v ∈ l) →
      out.Pairwise (fun a b => ltk (k b) (k a) = false) →
      out.Pairwise (fun a b => pyValLt (pyGetSort f b) (pyGetSort f a) ≠ .ok true) := by
    intro out hout hp
    refine List.Pairwise.imp_of_mem ?_ hp
    intro a b ha hb hlt
    rw [hrep a (hout a ha), hrep b (hout b hb), hcmp]
    intro hcon
    rw [hlt] at hcon
    cases hcon
  -- translate the κ-stability into PyVal-keyed stability
  have hfilter : ∀ (out : List PyVar), (∀ v ∈ out, v ∈ l) →
      (∀ kv : κ, out.filter (fun v => decide (k v = kv))
          = l.filter (fun v => decide (k v = kv))) →
      ∀ kv : PyVal, out.filter (fun v => decide (pyGetSort f v = kv))
          = l.filter (fun v => decide (pyGetSort f v = kv)) := by
    intro out hout hst kv
    rcases Classical.em (∃ x, kv = kval x) with ⟨x, rfl⟩ | hne
    · have hc1 : ∀ v ∈ out, (decide (pyGetSort f v = kval x) : Bool)
          = decide (k v = x) := by
        intro v hv
        rw [hrep v (hout v hv)]
        rcases Classical.em (k v = x) with he | he
        · simp [he]
        · simp [he]
          intro hcon
          exact he (hinj _ _ hcon)
      have hc2 : ∀ v ∈ l, (decide (pyGetSort f v = kval x) : Bool)
          = decide (k v = x) := by
        intro v hv
        rw [hrep v hv]
        rcases Classical.em (k v = x) with he | he
        · simp [he]
        · simp [he]
          intro hcon
          exact he (hinj _ _ hcon)
      rw [List.filter_congr hc1, List.filter_congr hc2]
      exact hst x
    · have hc1 : out.filter (fun v => decide (pyGetSort f v = kv)) = [] := by
        rw [List.filter_eq_nil_iff]
        intro v hv
        simp only [decide_eq_true_eq]
        intro hcon
        exact hne ⟨k v, by rw [← hcon, hrep v (hout v hv)]⟩
      have hc2 : l.filter (fun v => decide (pyGetSort f v = kv)) = [] := by
        rw [List.filter_eq_nil_iff]
        intro v hv
        simp only [decide_eq_true_eq]
        intro hcon
        exact hne ⟨k v, by rw [← hcon, hrep v hv]⟩
      rw [hc1, hc2]
  cases rev with
  | false =>
    rcases main l (fun v hv => hv) with ⟨hok, hperm, hsorted, hstable⟩
    refine ⟨sortP (fun a b => ltk (k a) (k b)) l, ?_, hperm, ?_, ?_, ?_⟩
    · rw [pySortList, if_neg (by simp)]
      exact hok
    · intro _
      exact hpairwise _ (fun v hv => hperm.mem_iff.1 hv) hsorted
    · intro hcon
      cases hcon
    · exact hfilter _ (fun v hv => hperm.mem_iff.1 hv) hstable
  | true =>
    rcases main l.reverse (fun v hv => (List.mem_reverse).1 hv) with
      ⟨hok, hperm, hsorted, hstable⟩
    refine ⟨(sortP (fun a b => ltk (k a) (k b)) l.reverse).reverse, ?_, ?_, ?_, ?_, ?_⟩
    · rw [pySortList, if_pos rfl, hok]
      rfl
    · exact ((List.reverse_perm _).trans hperm).trans (List.reverse_perm l)
    · intro hcon
      cases hcon
    · intro _
      have hp2 : (sortP (fun a b => ltk (k a) (k b)) l.reverse).reverse.Pairwise
          (fun a b => ltk (k a) (k b) = false) := by
        rw [List.pairwise_reverse]
        exact hsorted
      refine List.Pairwise.imp_of_mem ?_ hp2
      intro a b ha hb hlt
      have ha2 : a ∈ l := by
        have := (List.reverse_perm _).symm.mem_iff.1 ha
        exact (List.mem_reverse).1 (hperm.mem_iff.1 ((List.reverse_perm _).mem_iff.1 ha))
      have hb2 : b ∈ l := by
        exact (List.mem_reverse).1 (hperm.mem_iff.1 ((List.reverse_perm _).mem_iff.1 hb))
      rw [hrep a ha2, hrep b hb2, hcmp]
      intro hcon
      rw [hlt] at hcon
      cases hcon
    · have hsub : ∀ v ∈ (sortP (fun a b => ltk (k a) (k b)) l.reverse).reverse, v ∈ l := by
        intro v hv
        exact (List.mem_reverse).1 (hperm.mem_iff.1 ((List.reverse_perm _).mem_iff.1 hv))
      apply hfilter _ hsub
      intro kv
      rw [List.filter_reverse, hstable kv, List.filter_reverse, List.reverse_reverse]

/-- C9 counterexample: sorting on `protected` a collection that mixes an
explicit boolean with a missing field raises a type error (the missing
field is keyed by the *string* `''`, not by the boolean zero value), so
the record with the missing field does not sort as `false` — the pipeline
reports an error instead of the claim's stable result. -/
theorem sort_pipeline_counterexample :
    listPipeline none .«protected» false
        [⟨some "A", none, some false, none, none, none⟩,
         ⟨some "B", none, none, none, none, none⟩]
      = .error ()
    ∧ ((.error () : Except Unit (List PyVar))
        ≠ .ok [⟨some "A", none, some false, none, none, none⟩,
               ⟨some "B", none, none, none, none, none⟩]) := by
  constructor
  · rfl
  · simp

/-- C9 (amended). Filter/sort pipeline: the case-insensitive pattern
filter (abstracted as its `pattern.search` boolean) keeps exactly the
records whose key it matches, in original relative order; records missing
the sort field are keyed by the empty *string*, so a successful sort
forces all effective sort keys to one runtime type, and a boolean-field
sort over a collection mixing explicit and missing values errors instead
of treating missing as `false`; when the keys are uniformly typed the
sort succeeds, is a permutation sorted on the field (`reverse` inverting
the order), and is stable — records with equal sort keys keep their
original relative order. -/
theorem filter_sort_pipeline (p : String → Bool) (f : SortField) (rev : Bool)
    (vars : List PyVar) :
    ((vars.filter (fun v => p (v.key.getD ""))).Sublist vars
      ∧ ∀ v, v ∈ vars.filter (fun v => p (v.key.getD ""))
          ↔ v ∈ vars ∧ p (v.key.getD "") = true)
    ∧ (∀ out, listPipeline (some p) f rev vars = .ok out →
        ∀ v ∈ vars.filter (fun v => p (v.key.getD "")),
          ∀ w ∈ vars.filter (fun v => p (v.key.getD "")),
            isStrVal (pyGetSort f v) = isStrVal (pyGetSort f w))
    ∧ (((∀ v ∈ vars.filter (fun v => p (v.key.getD "")), isStrVal (pyGetSort f v) = true)
        ∨ (∀ v ∈ vars.filter (fun v => p (v.key.getD "")), isStrVal (pyGetSort f v) = false)) →
        ∃ out, listPipeline (some p) f rev vars = .ok out
          ∧ List.Perm out (vars.filter (fun v => p (v.key.getD "")))
          ∧ (rev = false →
              out.Pairwise (fun a b => pyValLt (pyGetSort f b) (pyGetSort f a) ≠ .ok true))
          ∧ (rev = true →
              out.Pairwise (fun a b => pyValLt (pyGetSort f a) (pyGetSort f b) ≠ .ok true))
          ∧ ∀ kv : PyVal, out.filter (fun v => decide (pyGetSort f v = kv))
              = (vars.filter (fun v => p (v.key.getD ""))).filter
                  (fun v => decide (pyGetSort f v = kv))) := by
  have hlp : listPipeline (some p) f rev vars
      = pySortList (sortCmp f) rev (vars.filter (fun v => p (v.key.getD ""))) := rfl
  refine ⟨⟨List.filter_sublist _, fun v => List.mem_filter⟩, ?_, ?_⟩
  · intro out hout v hv w hw
    rw [hlp] at hout
    cases rev with
    | false =>
      rw [pySortList, if_neg (by simp)] at hout
      exact sortE_ok_uniform (fun x y b h => pyValLt_ok_type h) hout v hv w hw
    | true =>
      rw [pySortList, if_pos rfl] at hout
      rcases exceptMap_ok_inv hout with ⟨o, ho, rfl⟩
      exact sortE_ok_uniform (fun x y b h => pyValLt_ok_type h) ho v
        ((List.mem_reverse).2 hv) w ((List.mem_reverse).2 hw)
  · intro huni
    rcases huni with huni | huni
    · rcases pipeline_generic f rev (fun v => (strValOf (pyGetSort f v)).data)
        charListLt (fun cs => PyVal.str ⟨cs⟩)
        charListLt_asymm charListLt_trans
        (fun a b hab => by
          cases hab
          rfl)
        (fun a b => rfl)
        (vars.filter (fun v => p (v.key.getD "")))
        (fun v hv => strVal_rep (huni v hv)) with ⟨out, hok, hrest⟩
      exact ⟨out, by rw [hlp]; exact hok, hrest⟩
    · rcases pipeline_generic f rev (fun v => boolValOf (pyGetSort f v))
        (fun a b => !a && b) PyVal.bool
        boolLt_asymm boolLt_trans
        (fun a b hab => by cases hab; rfl)
        (fun a b => rfl)
        (vars.filter (fun v => p (v.key.getD "")))
        (fun v hv => boolVal_rep (huni v hv)) with ⟨out, hok, hrest⟩
      exact ⟨out, by rw [hlp]; exact hok, hrest⟩

theorem filter_sort_pipeline_witness :
    ∃ out, listPipeline (some (fun s => pyContains "API".data s.data)) .key false
        [⟨some "API_KEY", none, none, none, none, none⟩,
         ⟨some "DATABASE_URL", none, none, none, none, none⟩,
         ⟨some "API_SECRET", none, none, none, none, none⟩] = .ok out
      ∧ List.Perm out
          ([(⟨some "API_KEY", none, none, none, none, none⟩ : PyVar),
            ⟨some "DATABASE_URL", none, none, none, none, none⟩,
            ⟨some "API_SECRET", none, none, none, none, none⟩].filter
            (fun v => (fun s => pyContains "API".data s.data) (v.key.getD "")))
      ∧ (false = false →
          out.Pairwise (fun a b =>
            pyValLt (pyGetSort .key b) (pyGetSort .key a) ≠ .ok true))
      ∧ (false = true →
          out.Pairwise (fun a b =>
            pyValLt (pyGetSort .key a) (pyGetSort .key b) ≠ .ok true))
      ∧ ∀ kv : PyVal, out.filter (fun v => decide (pyGetSort .key v = kv))
          = ([(⟨some "API_KEY", none, none, none, none, none⟩ : PyVar),
              ⟨some "DATABASE_URL", none, none, none, none, none⟩,
              ⟨some "API_SECRET", none, none, none, none, none⟩].filter
              (fun v => (fun s => pyContains "API".data s.data) (v.key.getD ""))).filter
              (fun v => decide (pyGetSort .key v = kv)) :=
  (filter_sort_pipeline (fun s => pyContains "API".data s.data) .key false
    [⟨some "API_KEY", none, none, none, none, none⟩,
     ⟨some "DATABASE_URL", none, none, none, none, none⟩,
     ⟨some "API_SECRET", none, none, none, none, none⟩]).2.2
    (Or.inl (fun v _ => rfl))
